import Mathlib

/-!
# Verification of the `zap` resource-embedding tool

A shallow embedding, in Lean 4, of the core of the `zap` repository:

* the call-site scanner (`parse`, `getZappedImportName`, `GetResourcesInFile`
  in `zap.go`),
* the directory-tree collector (`EmbedDirectories` in `zap.go`),
* the code generator (`GenerateCode` in `zap.go`),
* the runtime accessor library (`zapped/zapped.go`).

Go strings and byte slices are modelled as `List Char`; Go maps are modelled
as association lists where insertion replaces an existing binding; the
filesystem is modelled as a function from absolute paths to filesystem
entries.  All definitions follow the Go source; the theorems settle the
frozen claims about the specification.

The file is organised as definitions first, then theorems.
-/

namespace Zap

/-! ## Definitions: common infrastructure -/

/-- Go strings / byte slices are modelled as lists of characters. -/
abbrev Str : Type := List Char

/-- `filepath.Join(a, b)` for a clean, nonempty absolute `a` and a clean
relative component `b` (the only shapes the tool produces): `a + "/" + b`.
`os.PathSeparator` is `'/'` (the tool targets Unix paths in its tests). -/
def joinPath (a b : Str) : Str := a ++ '/' :: b

/-- Insertion into the association-list model of a Go `map`: mutating
`m[k] = v` replaces an existing binding for `k`, otherwise appends. -/
def insertReplace {β : Type} (k : Str) (v : β) : List (Str × β) → List (Str × β)
  | [] => [(k, v)]
  | (k', v') :: rest =>
    if k' = k then (k, v) :: rest else (k', v') :: insertReplace k v rest

/-- Reading `m[k]` from the association-list model of a Go `map`. -/
def alookup {β : Type} (k : Str) : List (Str × β) → Option β
  | [] => none
  | (k', v) :: rest => if k' = k then some v else alookup k rest

/-- The keys of an association list, in order. -/
def keysOf {β : Type} : List (Str × β) → List Str
  | [] => []
  | (k, _) :: rest => k :: keysOf rest

/-- The keys of an association list are pairwise distinct (true of any
association list that models a Go map). -/
def NodupKeys {β : Type} (l : List (Str × β)) : Prop := (keysOf l).Nodup

/-! ## Definitions: the call-site scanner (`parse` in `zap.go`)

`ast.Inspect` visits the nodes of the parsed file in document (preorder)
order; the `nil` "pop" calls are ignored by the callback (`if node == nil`).
The scanner only distinguishes `*ast.Ident`, `*ast.BasicLit` and "any other
node", so a source file is embedded as the preorder sequence of its nodes,
each carrying its `token.Pos` and its discriminated shape. -/

/-- `token.Pos` of an AST node. -/
abbrev Pos : Type := Nat

/-- The two error codes fed to `generateParseError`. -/
inductive ErrKind : Type
  | errorUnknownCall
  | errorBadType
deriving DecidableEq, Repr

/-- A positioned diagnostic produced by `handleError` (the position and the
error code that select the formatted message). -/
structure Diag : Type where
  pos : Pos
  kind : ErrKind
deriving DecidableEq, Repr

/-- The shapes of AST nodes that `parse`'s switch distinguishes: an
identifier with its name, a basic literal with its kind (`isString` models
`Kind == token.STRING`) and raw value (quotes included for string
literals), and every other node kind. -/
inductive Shape : Type
  | ident (name : Str)
  | basicLit (isString : Bool) (value : Str)
  | other
deriving DecidableEq, Repr

/-- An AST node as seen by the scanner. -/
structure Node : Type where
  pos : Pos
  shape : Shape
deriving DecidableEq, Repr

/-- `Resource` from `zap.go`: one key/path pair extracted from a call to
`Resource()`. -/
structure Resource : Type where
  Key : Str
  Path : Str
deriving DecidableEq, Repr

/-- The four states of `parse`'s state machine. -/
inductive PState : Type
  | NilState
  | ExpectingResourceCall
  | ExpectingKey
  | ExpectingPath
deriving DecidableEq, Repr

/-- The mutable state of one `parse` run: the current machine state, the
`resources` slice and the aggregated errors. -/
structure ScanSt : Type where
  state : PState
  resources : List Resource
  errs : List Diag
deriving DecidableEq, Repr

/-- The designated entry-point name `"Resource"`. -/
def resourceName : Str := "Resource".toList

/-- `node.Value[1 : len(node.Value)-1]`: strip the first and last byte
(the surrounding quotes of a parsed string literal). -/
def stripQuotes (v : Str) : Str := (v.drop 1).dropLast

/-- `resources[len(resources)-1].Path = p`: update the most recently
appended resource (no-op on the empty slice, where the Go code would be
out of bounds; claim C10 shows that point is never reached). -/
def setLastPath : List Resource → Str → List Resource
  | [], _ => []
  | [r], p => [{ r with Path := p }]
  | r :: s :: rest, p => r :: setLastPath (s :: rest) p

/-- `resolveIdent` from `parse`. -/
def resolveIdent (imp : Str) (st : ScanSt) (pos : Pos) (name : Str) : ScanSt :=
  match st.state with
  | .NilState =>
    if name = imp then { st with state := .ExpectingResourceCall } else st
  | .ExpectingResourceCall =>
    if name ≠ resourceName then
      { st with state := .NilState, errs := st.errs ++ [⟨pos, .errorUnknownCall⟩] }
    else
      { st with state := .ExpectingKey }
  | .ExpectingKey | .ExpectingPath =>
    { st with state := .NilState, errs := st.errs ++ [⟨pos, .errorBadType⟩] }

/-- `resolveBasicLit` from `parse`. -/
def resolveBasicLit (st : ScanSt) (pos : Pos) (isString : Bool) (value : Str) : ScanSt :=
  match st.state with
  | .ExpectingKey =>
    if isString then
      { st with
          state := .ExpectingPath,
          resources := st.resources ++ [⟨stripQuotes value, []⟩] }
    else
      { st with state := .NilState, errs := st.errs ++ [⟨pos, .errorBadType⟩] }
  | .ExpectingPath =>
    if isString then
      { st with state := .NilState, resources := setLastPath st.resources (stripQuotes value) }
    else
      { st with state := .NilState, errs := st.errs ++ [⟨pos, .errorBadType⟩] }
  | _ => st

/-- One visit of the `ast.Inspect` callback. -/
def stepNode (imp : Str) (st : ScanSt) (n : Node) : ScanSt :=
  match n.shape with
  | .ident name => resolveIdent imp st n.pos name
  | .basicLit isString value => resolveBasicLit st n.pos isString value
  | .other =>
    if st.state = .ExpectingKey ∨ st.state = .ExpectingPath then
      { st with state := .NilState, errs := st.errs ++ [⟨n.pos, .errorBadType⟩] }
    else
      { st with state := .NilState }

/-- Run the scanner over a node sequence from a given state. -/
def runNodes (imp : Str) (st : ScanSt) (nodes : List Node) : ScanSt :=
  nodes.foldl (stepNode imp) st

/-- `parse(f, fset, imp)`: walk the whole file from the zero state. -/
def parseFile (imp : Str) (nodes : List Node) : ScanSt :=
  runNodes imp ⟨.NilState, [], []⟩ nodes

/-- An import declaration as the scanner sees it: the raw `Path.Value`
(quotes included) and the optional local name. -/
structure ImportSpec : Type where
  pathValue : Str
  name : Option Str
deriving DecidableEq, Repr

/-- A parsed source file: its import table and the preorder sequence of its
body's nodes. -/
structure GoFile : Type where
  imports : List ImportSpec
  nodes : List Node
deriving DecidableEq, Repr

/-- `getZappedImportName`: the name the zapped library is imported under —
the declared name of the first import whose quoted path ends in `zapped"`,
`"zapped"` when it has no declared name, and `""` when no import matches. -/
def getZappedImportName : List ImportSpec → Str
  | [] => []
  | i :: rest =>
    if ("zapped\"".toList).isSuffixOf i.pathValue then
      match i.name with
      | some n => n
      | none => "zapped".toList
    else getZappedImportName rest

/-- `GetResourcesInFile` (after a successful `parser.ParseFile`): files that
do not usably import the library (`""`, `"_"` or `"."`) yield no resources
and no diagnostics; otherwise the scanner runs with the import name. -/
def GetResourcesInFile (f : GoFile) : List Resource × List Diag :=
  let imp := getZappedImportName f.imports
  if imp = [] ∨ imp = "_".toList ∨ imp = ".".toList then ([], [])
  else
    let st := parseFile imp f.nodes
    (st.resources, st.errs)

/-! ## Definitions: renderings of concrete call-site shapes

A call `al.Resource("k", "p")` is, in preorder: the `*ast.CallExpr` node,
the `*ast.SelectorExpr` node (both "other" to the scanner), the identifier
`al`, the identifier `Resource`, then the two string literals. -/

/-- `'"' + s + '"'`: the raw `Value` of a parsed string literal. -/
def quoteStr (s : Str) : Str := '"' :: s ++ ['"']

/-- Preorder node sequence of `al.Resource("k", "p")`. -/
def callNodes (al k p : Str) (pos : Pos) : List Node :=
  [⟨pos, .other⟩, ⟨pos + 1, .other⟩, ⟨pos + 2, .ident al⟩,
   ⟨pos + 3, .ident resourceName⟩,
   ⟨pos + 4, .basicLit true (quoteStr k)⟩,
   ⟨pos + 5, .basicLit true (quoteStr p)⟩]

/-- A node that cannot affect the machine in the idle state: anything that
is not an identifier named like the import alias. -/
def NeutralNode (al : Str) (n : Node) : Prop :=
  match n.shape with
  | .ident name => name ≠ al
  | _ => True

/-- An item of a file body: either a well-formed call site or a node that
does not mention the import alias. -/
inductive FileItem : Type
  | call (k p : Str) (pos : Pos)
  | neutral (n : Node)
deriving DecidableEq, Repr

/-- Render a body as the concatenation of its items' node sequences. -/
def renderItems (al : Str) : List FileItem → List Node
  | [] => []
  | .call k p pos :: rest => callNodes al k p pos ++ renderItems al rest
  | .neutral n :: rest => n :: renderItems al rest

/-- The resources the spec expects from a body: one per call item, in
document order. -/
def extractItems : List FileItem → List Resource
  | [] => []
  | .call k p _ :: rest => ⟨k, p⟩ :: extractItems rest
  | .neutral _ :: rest => extractItems rest

/-- The number of well-formed call sites in a body. -/
def callCount : List FileItem → Nat
  | [] => 0
  | .call _ _ _ :: rest => callCount rest + 1
  | .neutral _ :: rest => callCount rest

/-- The neutral items of a body do not mention the alias. -/
def NeutralItems (al : Str) (items : List FileItem) : Prop :=
  ∀ n, FileItem.neutral n ∈ items → NeutralNode al n

/-- The raw `Path.Value` of `import "zap/zapped"`. -/
def zappedPathValue : Str := "\"zap/zapped\"".toList

/-- A source file importing the zapped library under local name `al` whose
body renders the given items. -/
def mkZappedFile (al : Str) (items : List FileItem) : GoFile :=
  ⟨[⟨zappedPathValue, some al⟩], renderItems al items⟩

/-- An import alias under which the library is usable by the scanner. -/
def ProperAlias (al : Str) : Prop :=
  al ≠ [] ∧ al ≠ "_".toList ∧ al ≠ ".".toList

/-- A body consisting only of well-formed call sites. -/
def callsItems : List (Str × Str × Pos) → List FileItem
  | [] => []
  | (k, p, pos) :: rest => .call k p pos :: callsItems rest

/-- Preorder node sequence of `al.Resource(badArg, "p")` where `badArg` is
an arbitrary argument node that is not a string literal: the call and
selector nodes, the two identifiers, the offending argument node, then the
second (string-literal) argument. -/
def badCallNodes (al : Str) (pos : Pos) (bad : Node) (pl : Str) : List Node :=
  [⟨pos, .other⟩, ⟨pos + 1, .other⟩, ⟨pos + 2, .ident al⟩,
   ⟨pos + 3, .ident resourceName⟩, bad,
   ⟨pos + 4, .basicLit true (quoteStr pl)⟩]

/-- A leaf argument node that is not a string literal: an identifier (a
variable, like the spec's `x`), a non-string basic literal, or any other
childless node. -/
def BadArgNode (n : Node) : Prop :=
  match n.shape with
  | .basicLit isString _ => isString = false
  | _ => True

/-- The safety invariant of `parse` (claim C10): whenever the machine is in
`ExpectingPath`, at least one resource has been appended, so that
`resources[len(resources)-1]` is in bounds. -/
def ScanInv (st : ScanSt) : Prop :=
  st.state = .ExpectingPath → st.resources ≠ []

/-- The Go slice expression `v[1 : len(v)-1]` is in range:
`1 ≤ len(v)-1 ≤ len(v)`. -/
def GoSliceInRange (v : Str) : Prop :=
  1 ≤ v.length - 1 ∧ v.length - 1 ≤ v.length

/-- Concrete file: `import "zap/zapped"` (default name) with one call
`zapped.Resource("k", "p")`. -/
def fileDefaultImport : GoFile :=
  ⟨[⟨zappedPathValue, none⟩], callNodes ("zapped".toList) ("k".toList) ("p".toList) 0⟩

/-- Concrete file: `import . "zap/zapped"` (dot-import) with the
semantically identical call site written `Resource("k", "p")` (in preorder:
the `*ast.CallExpr` node, then the call-target identifier directly). -/
def fileDotImport : GoFile :=
  ⟨[⟨zappedPathValue, some (".".toList)⟩],
   [⟨0, .other⟩, ⟨1, .ident resourceName⟩,
    ⟨2, .basicLit true (quoteStr ("k".toList))⟩,
    ⟨3, .basicLit true (quoteStr ("p".toList))⟩]⟩

/-! ## Definitions: the directory-tree collector (`EmbedDirectories`)

`EmbedDirectories` reads the filesystem through `ioutil.ReadDir` and
`ioutil.ReadFile`.  The filesystem is modelled as a total map from absolute
path to entry; the recursive closure `dfn` is modelled with explicit fuel
(the Go recursion is bounded by the height of the directory tree, and every
concrete claim instantiates the fuel above it).  The state threads the
shared `dirs` map that `dfn` mutates and a log of the file paths
successfully read — the model's observer for "how many times was this file
read from disk". -/

/-- `Directory` from `zap.go`: the absolute paths of the subdirectories
(so that they are not embedded multiple times) and the contents of the
files, keyed by base name. -/
structure Dir : Type where
  SubDirs : List Str
  Files : List (Str × Str)
deriving DecidableEq, Repr

/-- One filesystem entry: a regular file with its contents, a directory
with its children (base name and `IsDir` flag, in `ReadDir` order), an
entry whose read fails, or no entry at all. -/
inductive FsEntry : Type
  | file (content : Str)
  | dir (entries : List (Str × Bool))
  | unreadable
  | missing
deriving DecidableEq, Repr

/-- The filesystem. -/
abbrev Fs : Type := Str → FsEntry

/-- Whether an entry can be read by `ioutil.ReadFile`. -/
def isFileEntry : FsEntry → Bool
  | .file _ => true
  | _ => false

/-- Whether an entry is a directory readable by `ioutil.ReadDir`. -/
def isDirEntry : FsEntry → Bool
  | .dir _ => true
  | _ => false

/-- Collection errors: a failed `ioutil.ReadDir`, a failed
`ioutil.ReadFile`, or exhaustion of the model's recursion fuel (never hit
at adequate fuel). -/
inductive CErr : Type
  | readDir (path : Str)
  | readFile (path : Str)
  | fuel
deriving DecidableEq, Repr

/-- The state threaded through collection: the shared `dirs` map mutated by
`dfn`, and the read log. -/
structure CState : Type where
  dirs : List (Str × Dir)
  log : List Str
deriving DecidableEq, Repr

/-- Names skipped entirely by `dfn` (`.git`, and the tool's own generated
output `zap.embed.go`). -/
def skipNames : List Str := [".git".toList, "zap.embed.go".toList]

/-- The body of `dfn`'s loop over `ioutil.ReadDir`'s result; `recur` stands
for the recursive `dfn` call on a subdirectory.  Returns the `Directory`
being built, the flattened `dnfErrors` aggregate, and the final state.  A
successful subdirectory is registered in the shared map and appended to
`SubDirs`; a failed one only contributes its error; a readable file is
appended to `Files` (and its path to the read log); an unreadable file
contributes a `readFile` error. -/
def collectEntries (recur : Str → CState → Except (List CErr) Dir × CState)
    (fs : Fs) (dpath : Str) :
    List (Str × Bool) → Dir → List CErr → CState → Dir × List CErr × CState
  | [], acc, errs, st => (acc, errs, st)
  | (name, isDir) :: rest, acc, errs, st =>
    if name ∈ skipNames then collectEntries recur fs dpath rest acc errs st
    else
      match isDir with
      | true =>
        match recur (joinPath dpath name) st with
        | (.ok sub, st') =>
          collectEntries recur fs dpath rest
            { acc with SubDirs := acc.SubDirs ++ [joinPath dpath name] } errs
            { st' with dirs := insertReplace (joinPath dpath name) sub st'.dirs }
        | (.error es, st') =>
          collectEntries recur fs dpath rest acc (errs ++ es) st'
      | false =>
        match fs (joinPath dpath name) with
        | .file content =>
          collectEntries recur fs dpath rest
            { acc with Files := acc.Files ++ [(name, content)] } errs
            { st with log := st.log ++ [joinPath dpath name] }
        | _ =>
          collectEntries recur fs dpath rest acc
            (errs ++ [.readFile (joinPath dpath name)]) st

/-- `dfn` from `EmbedDirectories`.  `Except.error` is returned exactly when
the Go closure returns a non-nil error: a failed `ReadDir`, or a non-empty
`dnfErrors` aggregate (per `SafeReturn`). -/
def collectDir (fs : Fs) : Nat → Str → CState → Except (List CErr) Dir × CState
  | 0, _, st => (.error [CErr.fuel], st)
  | fuel + 1, dpath, st =>
    match fs dpath with
    | .dir entries =>
      match collectEntries (collectDir fs fuel) fs dpath entries ⟨[], []⟩ [] st with
      | (d, errs, st') => (if errs = [] then .ok d else .error errs, st')
    | _ => (.error [.readDir dpath], st)

/-- The state of the top-level loop of `EmbedDirectories`: the shared
collection state plus the top-level `errors` aggregate. -/
structure EmbedSt : Type where
  cst : CState
  errs : List CErr
deriving DecidableEq, Repr

/-- One iteration of the loop over `resources`: a path already present in
`dirs` is skipped; otherwise `dfn` collects it, and on success the result
is registered under the resource's path. -/
def embedStep (fs : Fs) (fuel : Nat) (st : EmbedSt) (res : Resource) : EmbedSt :=
  match alookup res.Path st.cst.dirs with
  | some _ => st
  | none =>
    match collectDir fs fuel res.Path st.cst with
    | (.ok d, st') => ⟨{ st' with dirs := insertReplace res.Path d st'.dirs }, st.errs⟩
    | (.error es, st') => ⟨st', st.errs ++ es⟩

/-- `EmbedDirectories`: fold the loop over the resource list starting from
the empty map, returning the collected mapping and the aggregate errors. -/
def EmbedDirectories (fs : Fs) (fuel : Nat) (resources : List Resource) : EmbedSt :=
  resources.foldl (embedStep fs fuel) ⟨⟨[], []⟩, []⟩

/-- Concrete filesystem for the C6 counterexample: `/a` contains the
subdirectory `b`; `/a/b` contains the file `f` with contents `x`. -/
def fsC6 : Fs := fun p =>
  if p = "/a".toList then .dir [("b".toList, true)]
  else if p = "/a/b".toList then .dir [("f".toList, false)]
  else if p = "/a/b/f".toList then .file ("x".toList)
  else .missing

/-- Resources for the C6 counterexample: two resources resolving to the
same absolute path `/a/b`, plus one resolving to its parent `/a`. -/
def resC6 : List Resource :=
  [⟨"K1".toList, "/a/b".toList⟩, ⟨"K2".toList, "/a/b".toList⟩,
   ⟨"R".toList, "/a".toList⟩]

/-- Concrete filesystem for the C8 counterexample: `/r` contains the
readable file `good`, the unreadable file `bad`, and the intact
subdirectory `sub` containing the file `c`. -/
def fsC8 : Fs := fun p =>
  if p = "/r".toList then
    .dir [("good".toList, false), ("bad".toList, false), ("sub".toList, true)]
  else if p = "/r/good".toList then .file ("g".toList)
  else if p = "/r/bad".toList then .unreadable
  else if p = "/r/sub".toList then .dir [("c".toList, false)]
  else if p = "/r/sub/c".toList then .file ("c".toList)
  else .missing

/-- The single resource of the C8 counterexample. -/
def resC8 : List Resource := [⟨"K".toList, "/r".toList⟩]

/-- Concrete filesystem for the directory half of the C8 witness: `/q`
contains the readable file `okf`, the unreadable subdirectory `bd`
(listed as a directory entry but failing `ReadDir`), and the intact
subdirectory `sub` containing the file `c`. -/
def fsC8d : Fs := fun p =>
  if p = "/q".toList then
    .dir [("okf".toList, false), ("bd".toList, true), ("sub".toList, true)]
  else if p = "/q/okf".toList then .file ("o".toList)
  else if p = "/q/bd".toList then .unreadable
  else if p = "/q/sub".toList then .dir [("c".toList, false)]
  else if p = "/q/sub/c".toList then .file ("c".toList)
  else .missing

/-! ## Definitions: the code generator (`GenerateCode`)

`GenerateCode` iterates over the `dirs` map (`for dpath := range dirs`),
sorts the paths with `sort.Slice` by descending `os.PathSeparator` count,
assigns each path its hash identifier, renders the template and formats
the result.  A Go map has no iteration order, so the model takes the
mapping *as an iteration sequence* — a `List (Str × Dir)`; two sequences
that are permutations of each other denote the same map.  `sort.Slice` is
not stable and its comparator only compares separator counts, so the model
sorts with a comparator-consistent sort (insertion sort); `text/template`
ranges over the inner `Files`/`Dirs` maps in sorted key order, which the
model reproduces; `format.Source` is a deterministic normalization of the
rendered text and is outside the modelled core (spec §1 scopes the
template mechanics out), so the model's output is the rendered template
text. -/

/-- `strings.Count(path, string(os.PathSeparator))`. -/
def sepCount (p : Str) : Nat := p.count '/'

/-- The stable identifier of a directory:
`fmt.Sprintf("_%x", sha1.Sum([]byte(path)))`.  The generator relies only
on the digest being a deterministic function of the path, distinct for
distinct paths (the spec treats collisions as negligible), so the model
uses an injective path encoding. -/
def hashIdent (p : Str) : Str := '_' :: p

/-- The `sort.Slice` comparator `ic > jc`, as the sortedness relation of
the sorted slice: descending separator count. -/
def depthGe (a b : Str × Dir) : Prop := sepCount b.1 ≤ sepCount a.1

instance : DecidableRel depthGe := fun _ _ => Nat.decLe _ _

instance : IsTotal (Str × Dir) depthGe := ⟨fun _ _ => Nat.le_total _ _⟩

instance : IsTrans (Str × Dir) depthGe := ⟨fun _ _ _ h₁ h₂ => Nat.le_trans h₂ h₁⟩

/-- Strict version of `depthGe`, used for the determinism argument. -/
def depthGt (a b : Str × Dir) : Prop := sepCount b.1 < sepCount a.1

instance : IsAntisymm (Str × Dir) depthGt :=
  ⟨fun _ _ h₁ h₂ => absurd h₂ (Nat.lt_asymm h₁)⟩

/-- Lexicographic comparison on strings, modelling the deterministic
sorted key order in which `text/template` ranges over a Go map. -/
def strLeB : Str → Str → Bool
  | [], _ => true
  | _ :: _, [] => false
  | a :: as, b :: bs => if a = b then strLeB as bs else decide (a < b)

/-- The key order of `text/template`'s map iteration. -/
def keyLe {β : Type} (a b : Str × β) : Prop := strLeB a.1 b.1 = true

instance {β : Type} : DecidableRel (keyLe (β := β)) := fun _ _ => Bool.decEq _ _

/-- Sort an association list by key, as `text/template` does when ranging
over a map. -/
def sortAssoc {β : Type} (l : List (Str × β)) : List (Str × β) :=
  l.insertionSort keyLe

/-- `filepath.Rel(base, sub)` for the path shapes the collector produces
(`sub = base + "/" + name`): strip the `base + "/"` prefix.  Any other
shape is modelled as the error case, which `GenerateCode` skips while
recording an error. -/
def goRel (base sub : Str) : Option Str :=
  if sub.take (base.length + 1) = base ++ ['/'] then some (sub.drop (base.length + 1))
  else none

/-- `TmplDir` from `GenerateCode`: the template data of one directory.
`Dirs` and `Files` are key-sorted, the order in which `text/template`
ranges over a map. -/
structure Block : Type where
  Name : Str
  Hash : Str
  Dirs : List (Str × Str)
  Files : List (Str × Str)
deriving DecidableEq, Repr

/-- The `dt.Dirs` map: for each subdirectory, `filepath.Rel`'s relative
name mapped to `hashMap[subd]` (Go's zero value `""` on a miss); a `Rel`
failure skips the entry. -/
def dirRefs (hm : List (Str × Str)) (p : Str) (subs : List Str) : List (Str × Str) :=
  subs.foldl (fun m s =>
    match goRel p s with
    | some t => insertReplace t ((alookup s hm).getD []) m
    | none => m) []

/-- Build one `TmplDir` from the current `hashMap`. -/
def mkBlock (hm : List (Str × Str)) (p : Str) (d : Dir) : Block :=
  { Name := p, Hash := hashIdent p,
    Dirs := sortAssoc (dirRefs hm p d.SubDirs),
    Files := sortAssoc d.Files }

/-- The loop of `GenerateCode` over the sorted paths: `hashMap[path]` is
assigned before the directory's `TmplDir` is built, and the blocks are
emitted in order. -/
def buildBlocks (hm : List (Str × Str)) : List (Str × Dir) → List Block
  | [] => []
  | (p, d) :: rest =>
    mkBlock (insertReplace p (hashIdent p) hm) p d ::
      buildBlocks (insertReplace p (hashIdent p) hm) rest

/-- `sort.Slice(sortedDirs, func(i, j) { return ic > jc })`: order the
iteration sequence by descending separator count. -/
def sortDirs (l : List (Str × Dir)) : List (Str × Dir) := l.insertionSort depthGe

/-- The `hashMap` after a sequence of paths has been processed: each path
maps to its hash identifier. -/
def hmOf (ps : List Str) : List (Str × Str) :=
  ps.foldl (fun m q => insertReplace q (hashIdent q) m) []

/-- The emitted template data for a given map iteration sequence. -/
def genBlocks (dirsIter : List (Str × Dir)) : List Block :=
  buildBlocks [] (sortDirs dirsIter)

/-- Render one directory's statements, following the template text. -/
def renderBlock (b : Block) : Str :=
  "// ".toList ++ b.Name ++ "\n".toList ++
    b.Hash ++
    " := Directory\x7bdirectories: make(map[string]*Directory), files: make(map[string]File)\x7d\n".toList ++
    (b.Dirs.foldr (fun kv acc =>
      b.Hash ++ ".directories[\"".toList ++ kv.1 ++ "\"] = &".toList ++ kv.2 ++
        "\n".toList ++ acc) []) ++
    (b.Files.foldr (fun kv acc =>
      b.Hash ++ ".files[\"".toList ++ kv.1 ++ "\"] = File\x7b".toList ++ kv.2 ++
        "\x7d\n".toList ++ acc) [])

/-- Render the whole generated file (the template's output; `format.Source`
is a deterministic normalization applied afterwards, outside the modelled
core). -/
def renderOutput (devMode : Bool) (blocks : List Block) : Str :=
  "package zapped\n\nfunc init() \x7b\ndevelopmentMode = ".toList ++
    (if devMode then "true".toList else "false".toList) ++ "\n".toList ++
    (blocks.foldr (fun b acc => renderBlock b ++ acc) []) ++ "\x7d\n".toList

/-- `GenerateCode` on a given map iteration sequence. -/
def GenerateCode (dirsIter : List (Str × Dir)) (devMode : Bool) : Str :=
  renderOutput devMode (genBlocks dirsIter)

/-- `sub` is a direct child path of `p`: `p + "/" + name` for a nonempty
`name` containing no separator. -/
def SubShape (p sub : Str) : Prop :=
  sub = p ++ '/' :: sub.drop (p.length + 1) ∧
    sub.drop (p.length + 1) ≠ [] ∧ '/' ∉ sub.drop (p.length + 1)

/-- The invariants of a collected tree mapping, as `EmbedDirectories`
produces it: pairwise-distinct keys; each directory's file names pairwise
distinct and its subdirectory list duplicate-free; every listed
subdirectory a direct child path of its parent (`filepath.Join(dpath,
name)`) and itself a key of the mapping. -/
def WFdirs (l : List (Str × Dir)) : Prop :=
  NodupKeys l ∧
    ∀ pd ∈ l, NodupKeys pd.2.Files ∧ pd.2.SubDirs.Nodup ∧
      ∀ sub ∈ pd.2.SubDirs, SubShape pd.1 sub ∧ sub ∈ keysOf l

instance {β : Type} (l : List (Str × β)) : Decidable (NodupKeys l) :=
  inferInstanceAs (Decidable ((keysOf l).Nodup))

instance (p sub : Str) : Decidable (SubShape p sub) :=
  inferInstanceAs (Decidable (_ ∧ _ ∧ _))

instance (l : List (Str × Dir)) : Decidable (WFdirs l) :=
  inferInstanceAs (Decidable (NodupKeys l ∧
    ∀ pd ∈ l, NodupKeys pd.2.Files ∧ pd.2.SubDirs.Nodup ∧
      ∀ sub ∈ pd.2.SubDirs, SubShape pd.1 sub ∧ sub ∈ keysOf l))

/-- C1 counterexample mappings: the same two-directory map (both keys have
one separator) in its two possible iteration orders. -/
def dirsC1a : List (Str × Dir) := [("/a".toList, ⟨[], []⟩), ("/b".toList, ⟨[], []⟩)]

/-- The other iteration order of the same mapping. -/
def dirsC1b : List (Str × Dir) := [("/b".toList, ⟨[], []⟩), ("/a".toList, ⟨[], []⟩)]

/-! ## Definitions: the runtime accessor library (`zapped/zapped.go`) -/

/-- I/O errors from `ioutil.ReadFile`, distinguishing "does not exist"
from "unreadable". -/
inductive IOE : Type
  | noEnt (path : Str)
  | perm (path : Str)
deriving DecidableEq, Repr

/-- The runtime filesystem, as `ioutil.ReadFile` sees it. -/
abbrev RFs : Type := Str → Except IOE Str

/-- Runtime accessor errors: the synthesized not-found errors of embedded
mode, a passed-through I/O error of development mode, and the
`runtime.Caller` failure of `Resource`. -/
inductive ZErr : Type
  | notFoundFile (name : Str)
  | notFoundDir (name : Str)
  | notFoundRes (key : Str)
  | io (e : IOE)
  | callerFail (dir : Str)
deriving DecidableEq, Repr

/-- A runtime `Directory`: the embedded-mode maps plus the
development-mode base path.  Subdirectory pointers are modelled as the
hash identifiers of the generated locals, dereferenced through the
environment built by the generated `init`. -/
structure RDir : Type where
  files : List (Str × Str)
  directories : List (Str × Str)
  devPath : Str
deriving DecidableEq, Repr

/-- `Directory.File`: embedded mode is a map lookup with a synthesized
not-found error on a miss; development mode reads `filepath.Join(devPath,
name)` from disk on every call and returns the underlying I/O error
unchanged on failure. -/
def zappedFile (developmentMode : Bool) (rfs : RFs) (dir : RDir) (name : Str) :
    Except ZErr Str :=
  match developmentMode with
  | false =>
    match alookup name dir.files with
    | some f => .ok f
    | none => .error (.notFoundFile name)
  | true =>
    match rfs (joinPath dir.devPath name) with
    | .ok bytes => .ok bytes
    | .error e => .error (.io e)

/-- `Directory.Directory`: embedded mode is a map lookup, with the stored
pointer dereferenced through the generated environment (a dangling
identifier — impossible for well-formed generated code — maps to the
not-found error); development mode always succeeds with the lazily
validated joined path. -/
def zappedDirectory (developmentMode : Bool) (env : List (Str × RDir)) (dir : RDir)
    (name : Str) : Except ZErr RDir :=
  match developmentMode with
  | false =>
    match alookup name dir.directories with
    | none => .error (.notFoundDir name)
    | some h =>
      match alookup h env with
      | some d => .ok d
      | none => .error (.notFoundDir name)
  | true => .ok ⟨[], [], joinPath dir.devPath name⟩

/-- The environment the generated `init` builds: one runtime `Directory`
local per emitted block (its key-sorted file map and subdirectory
references; `devPath` is the zero value), keyed by the block's hash
identifier. -/
def interpBlocks (bs : List Block) : List (Str × RDir) :=
  bs.foldl (fun env b => insertReplace b.Hash ⟨b.Files, b.Dirs, []⟩ env) []

/-- The `resources` registry after the generated `init` has run: the
template contains no statement writing to `resources`, so the registry is
empty whatever blocks were generated. -/
def initResources (_bs : List Block) : List (Str × RDir) := []

/-- `Resource` in embedded mode: a lookup in the `resources` registry. -/
def zappedResource (resources : List (Str × RDir)) (key : Str) : Except ZErr RDir :=
  match alookup key resources with
  | some d => .ok d
  | none => .error (.notFoundRes key)

/-- C3 counterexample mapping: one directory `/x` holding one file. -/
def dirsC3 : List (Str × Dir) := [("/x".toList, ⟨[], [("f".toList, "hi".toList)]⟩)]

/-! ## Theorems: association lists -/

@[simp] theorem keysOf_nil {β : Type} : keysOf ([] : List (Str × β)) = [] := rfl

@[simp] theorem keysOf_cons {β : Type} (k : Str) (v : β) (l : List (Str × β)) :
    keysOf ((k, v) :: l) = k :: keysOf l := rfl

theorem keysOf_eq_map {β : Type} (l : List (Str × β)) : keysOf l = l.map Prod.fst := by
  induction l with
  | nil => rfl
  | cons p rest ih => obtain ⟨k, v⟩ := p; rw [keysOf_cons, List.map_cons, ih]

@[simp] theorem keysOf_append {β : Type} (l₁ l₂ : List (Str × β)) :
    keysOf (l₁ ++ l₂) = keysOf l₁ ++ keysOf l₂ := by
  induction l₁ with
  | nil => rfl
  | cons p rest ih => obtain ⟨k, v⟩ := p; simp [ih]

theorem alookup_insertReplace {β : Type} (k k' : Str) (v : β) (l : List (Str × β)) :
    alookup k (insertReplace k' v l) = if k' = k then some v else alookup k l := by
  induction l with
  | nil => simp [insertReplace, alookup]
  | cons p rest ih =>
    obtain ⟨k₀, v₀⟩ := p
    by_cases h0 : k₀ = k'
    · subst h0
      by_cases h1 : k₀ = k
      · subst h1; simp [insertReplace, alookup]
      · simp [insertReplace, alookup, h1]
    · by_cases h1 : k₀ = k
      · subst h1
        have hne : ¬ k' = k₀ := fun h => h0 h.symm
        simp [insertReplace, alookup, h0, hne]
      · simp [insertReplace, alookup, h0, h1, ih]

theorem mem_keys_insertReplace {β : Type} (k k' : Str) (v : β) (l : List (Str × β)) :
    k' ∈ keysOf (insertReplace k v l) ↔ k' = k ∨ k' ∈ keysOf l := by
  induction l with
  | nil => simp [insertReplace]
  | cons p rest ih =>
    obtain ⟨k₀, v₀⟩ := p
    by_cases h0 : k₀ = k
    · subst h0
      rw [insertReplace, if_pos rfl, keysOf_cons, keysOf_cons]
      simp only [List.mem_cons]
      exact ⟨fun h => h.elim Or.inl (fun h => Or.inr (Or.inr h)),
        fun h => h.elim Or.inl (fun h => h.elim Or.inl Or.inr)⟩
    · rw [insertReplace, if_neg h0, keysOf_cons, keysOf_cons]
      simp only [List.mem_cons, ih]
      exact or_left_comm

theorem nodupKeys_insertReplace {β : Type} (k : Str) (v : β) (l : List (Str × β))
    (h : NodupKeys l) : NodupKeys (insertReplace k v l) := by
  induction l with
  | nil => exact List.nodup_singleton k
  | cons p rest ih =>
    obtain ⟨k₀, v₀⟩ := p
    simp only [NodupKeys, keysOf_cons, List.nodup_cons] at h
    by_cases h0 : k₀ = k
    · subst h0
      unfold NodupKeys
      rw [insertReplace, if_pos rfl, keysOf_cons]
      exact List.nodup_cons.mpr ⟨h.1, h.2⟩
    · have h' := ih h.2
      unfold NodupKeys
      rw [insertReplace, if_neg h0, keysOf_cons]
      refine List.nodup_cons.mpr ⟨?_, h'⟩
      rw [mem_keys_insertReplace]
      rintro (rfl | hk)
      · exact h0 rfl
      · exact h.1 hk

theorem alookup_eq_some_of_mem {β : Type} {l : List (Str × β)} {k : Str} {v : β}
    (hn : NodupKeys l) (hm : (k, v) ∈ l) : alookup k l = some v := by
  induction l with
  | nil => cases hm
  | cons p rest ih =>
    obtain ⟨k₀, v₀⟩ := p
    simp only [NodupKeys, keysOf_cons, List.nodup_cons] at hn
    rcases List.mem_cons.mp hm with h | h
    · cases h; simp [alookup]
    · have hk : k₀ ≠ k := by
        rintro rfl
        refine hn.1 ?_
        rw [keysOf_eq_map]
        exact List.mem_map.mpr ⟨(k₀, v), h, rfl⟩
      simp [alookup, hk, ih hn.2 h]

theorem alookup_isSome_iff {β : Type} (k : Str) (l : List (Str × β)) :
    (alookup k l).isSome ↔ k ∈ keysOf l := by
  induction l with
  | nil => simp [alookup]
  | cons p rest ih =>
    obtain ⟨k₀, v₀⟩ := p
    rw [keysOf_cons]
    by_cases h : k₀ = k
    · subst h; simp [alookup]
    · have h2 : ¬ k = k₀ := fun heq => h heq.symm
      simp [alookup, h, h2, ih]

theorem alookup_perm {β : Type} {l₁ l₂ : List (Str × β)} (h : l₁.Perm l₂)
    (hn : NodupKeys l₁) (k : Str) : alookup k l₁ = alookup k l₂ := by
  induction h with
  | nil => rfl
  | cons x h ih =>
    obtain ⟨k₀, v₀⟩ := x
    simp only [NodupKeys, keysOf_cons, List.nodup_cons] at hn
    by_cases hk : k₀ = k
    · simp [alookup, hk]
    · simp [alookup, hk, ih hn.2]
  | swap x y l =>
    obtain ⟨k₀, v₀⟩ := x
    obtain ⟨k₁, v₁⟩ := y
    simp only [NodupKeys, keysOf_cons, List.nodup_cons, List.mem_cons, not_or] at hn
    by_cases h0 : k₀ = k
    · have h1 : ¬ k₁ = k := fun hq => hn.1.1 (hq.trans h0.symm)
      simp [alookup, h0, h1]
    · by_cases h1 : k₁ = k
      · simp [alookup, h0, h1]
      · simp [alookup, h0, h1]
  | trans h₁ h₂ ih₁ ih₂ =>
    rw [ih₁ hn]
    refine ih₂ ?_
    unfold NodupKeys at hn ⊢
    rw [keysOf_eq_map] at hn ⊢
    exact ((h₁.map Prod.fst).nodup_iff).mp hn

theorem keys_mem_of_mem {β : Type} {l : List (Str × β)} {k : Str}
    (h : k ∈ keysOf l) : ∃ v, (k, v) ∈ l := by
  rw [keysOf_eq_map] at h
  rcases List.mem_map.mp h with ⟨⟨k', v⟩, hm, he⟩
  exact ⟨v, by simpa [← he] using hm⟩

/-! ## Theorems: scanner computation lemmas -/

theorem stripQuotes_quoteStr (s : Str) : stripQuotes (quoteStr s) = s := by
  simp [stripQuotes, quoteStr]

theorem setLastPath_append (xs : List Resource) (r : Resource) (p : Str) :
    setLastPath (xs ++ [r]) p = xs ++ [{ r with Path := p }] := by
  induction xs with
  | nil => rfl
  | cons x xs ih =>
    cases xs with
    | nil => simp [setLastPath]
    | cons y ys => simpa [setLastPath] using ih

/-- Running the scanner over one well-formed call site from the idle state
appends exactly one resource, with key and path stripped of their quotes,
and no diagnostic. -/
theorem runNodes_callNodes (imp k p : Str) (pos : Pos) (rs : List Resource)
    (es : List Diag) :
    runNodes imp ⟨.NilState, rs, es⟩ (callNodes imp k p pos) =
      ⟨.NilState, rs ++ [⟨k, p⟩], es⟩ := by
  simp [runNodes, callNodes, stepNode, resolveIdent, resolveBasicLit, resourceName,
    stripQuotes_quoteStr, setLastPath_append]

theorem stepNode_neutral (al : Str) (n : Node) (hn : NeutralNode al n)
    (rs : List Resource) (es : List Diag) :
    stepNode al ⟨.NilState, rs, es⟩ n = ⟨.NilState, rs, es⟩ := by
  obtain ⟨pos, sh⟩ := n
  cases sh with
  | ident name =>
    have : name ≠ al := hn
    simp [stepNode, resolveIdent, this]
  | basicLit isString value => simp [stepNode, resolveBasicLit]
  | other => simp [stepNode]

theorem runNodes_renderItems (al : Str) (items : List FileItem)
    (hn : NeutralItems al items) :
    ∀ rs es, runNodes al ⟨.NilState, rs, es⟩ (renderItems al items) =
      ⟨.NilState, rs ++ extractItems items, es⟩ := by
  induction items with
  | nil => intro rs es; simp [renderItems, runNodes, extractItems]
  | cons i rest ih =>
    intro rs es
    have hrest : NeutralItems al rest := fun n hm => hn n (List.mem_cons_of_mem _ hm)
    cases i with
    | call k p pos =>
      have h1 := runNodes_callNodes al k p pos rs es
      have h2 := ih hrest (rs ++ [⟨k, p⟩]) es
      simp only [runNodes] at h1 h2 ⊢
      rw [renderItems, List.foldl_append, h1, h2, extractItems]
      simp
    | neutral n =>
      have h1 : NeutralNode al n := hn n (List.mem_cons_self _ _)
      have h2 := ih hrest rs es
      simp only [runNodes] at h2 ⊢
      rw [renderItems, List.foldl_cons, stepNode_neutral al n h1 rs es, h2, extractItems]

theorem getZappedImportName_mk (al : Str) :
    getZappedImportName [⟨zappedPathValue, some al⟩] = al := rfl

theorem getResourcesInFile_items (al : Str) (items : List FileItem)
    (hp : ProperAlias al) (hn : NeutralItems al items) :
    GetResourcesInFile (mkZappedFile al items) = (extractItems items, []) := by
  unfold GetResourcesInFile mkZappedFile
  rw [getZappedImportName_mk]
  rw [if_neg (by rintro (h | h | h) <;> [exact hp.1 h; exact hp.2.1 h; exact hp.2.2 h])]
  unfold parseFile
  rw [runNodes_renderItems al items hn]
  simp

theorem extractItems_length (items : List FileItem) :
    (extractItems items).length = callCount items := by
  induction items with
  | nil => rfl
  | cons i rest ih =>
    cases i with
    | call k p pos => simp [extractItems, callCount, ih]
    | neutral n => simp [extractItems, callCount, ih]

theorem neutralItems_callsItems (al : Str) (calls : List (Str × Str × Pos)) :
    NeutralItems al (callsItems calls) := by
  intro n hm
  induction calls with
  | nil => cases hm
  | cons c rest ih =>
    obtain ⟨k, p, pos⟩ := c
    rcases List.mem_cons.mp hm with h | h
    · cases h
    · exact ih h

/-- Running the scanner over one ill-formed call site (first argument not a
string literal) from the idle state: exactly one `errorBadType` diagnostic
at the argument's position, no resource appended, idle state restored. -/
theorem runNodes_badCallNodes (al : Str) (pos : Pos) (bad : Node) (pl : Str)
    (hb : BadArgNode bad) (rs : List Resource) (es : List Diag) :
    runNodes al ⟨.NilState, rs, es⟩ (badCallNodes al pos bad pl) =
      ⟨.NilState, rs, es ++ [⟨bad.pos, .errorBadType⟩]⟩ := by
  obtain ⟨bpos, sh⟩ := bad
  cases sh with
  | ident name =>
    simp [runNodes, badCallNodes, stepNode, resolveIdent, resolveBasicLit, resourceName]
  | basicLit isString value =>
    have hs : isString = false := hb
    subst hs
    simp [runNodes, badCallNodes, stepNode, resolveIdent, resolveBasicLit, resourceName]
  | other =>
    simp [runNodes, badCallNodes, stepNode, resolveIdent, resolveBasicLit, resourceName]

theorem stepNode_scanInv (imp : Str) (st : ScanSt) (n : Node) (h : ScanInv st) :
    ScanInv (stepNode imp st n) := by
  obtain ⟨s, rs, es⟩ := st
  obtain ⟨pos, sh⟩ := n
  cases sh with
  | ident name =>
    cases s with
    | NilState =>
      by_cases hni : name = imp <;> simp [stepNode, resolveIdent, hni, ScanInv]
    | ExpectingResourceCall =>
      by_cases hr : name = resourceName <;> simp [stepNode, resolveIdent, hr, ScanInv]
    | ExpectingKey => simp [stepNode, resolveIdent, ScanInv]
    | ExpectingPath => simp [stepNode, resolveIdent, ScanInv]
  | basicLit isString value =>
    cases s with
    | NilState => simp [stepNode, resolveBasicLit, ScanInv]
    | ExpectingResourceCall => simp [stepNode, resolveBasicLit, ScanInv]
    | ExpectingKey =>
      cases isString <;> simp [stepNode, resolveBasicLit, ScanInv]
    | ExpectingPath =>
      cases isString <;> simp [stepNode, resolveBasicLit, ScanInv]
  | other =>
    cases s <;> simp [stepNode, ScanInv]

theorem runNodes_scanInv (imp : Str) (nodes : List Node) :
    ∀ st, ScanInv st → ScanInv (runNodes imp st nodes) := by
  induction nodes with
  | nil => intro st h; exact h
  | cons n rest ih =>
    intro st h
    exact ih (stepNode imp st n) (stepNode_scanInv imp st n h)

/-! ## Theorems: scanner claims -/

/-- C4 (confirmed): for every source file that imports the embedding
library under a usable alias and whose only uses of that alias are
well-formed calls `al.Resource(stringLit, stringLit)`, the scanner returns
exactly the N resources in document order, each with the key and path
stripped of their surrounding quotes, and no diagnostic. -/
theorem claim_C4_wellformed_calls (al : Str) (items : List FileItem)
    (hp : ProperAlias al) (hn : NeutralItems al items) :
    GetResourcesInFile (mkZappedFile al items) = (extractItems items, []) ∧
      (GetResourcesInFile (mkZappedFile al items)).1.length = callCount items := by
  have h := getResourcesInFile_items al items hp hn
  exact ⟨h, by rw [h]; exact extractItems_length items⟩

theorem claim_C4_wellformed_calls_witness :
    ProperAlias ("zapped".toList) ∧
      GetResourcesInFile (mkZappedFile ("zapped".toList)
        [.call ("k".toList) ("p".toList) 0, .call ("k2".toList) ("p2".toList) 10]) =
        ([⟨"k".toList, "p".toList⟩, ⟨"k2".toList, "p2".toList⟩], []) := by
  have hp : ProperAlias ("zapped".toList) := by
    refine ⟨?_, ?_, ?_⟩ <;> decide
  have hn : NeutralItems ("zapped".toList)
      [.call ("k".toList) ("p".toList) 0, .call ("k2".toList) ("p2".toList) 10] := by
    intro n hm
    rcases List.mem_cons.mp hm with h | h
    · cases h
    · rcases List.mem_cons.mp h with h | h
      · cases h
      · cases h
  have h := claim_C4_wellformed_calls ("zapped".toList)
    [.call ("k".toList) ("p".toList) 0, .call ("k2".toList) ("p2".toList) 10] hp hn
  exact ⟨hp, by rw [h.1]; rfl⟩

/-- C2 counterexample: under a dot-import the scanner extracts no
resources, while the semantically identical call sites under the default
name extract one resource, so the extracted set is not invariant under
switching to a dot-import. -/
theorem claim_C2_counterexample :
    GetResourcesInFile fileDefaultImport = ([⟨"k".toList, "p".toList⟩], []) ∧
      GetResourcesInFile fileDotImport = ([], []) ∧
      GetResourcesInFile fileDotImport ≠ GetResourcesInFile fileDefaultImport := by
  refine ⟨by decide, by decide, by decide⟩

/-- C2 (corrected): renaming the import alias between any two usable
(non-blank, non-underscore, non-dot) local names — including the default
name `zapped` — does not change the extracted resources of semantically
identical call sites.  Dot-imports are excluded: `GetResourcesInFile`
returns no resources for them (see the counterexample). -/
theorem claim_C2_alias_invariance (a b : Str) (calls : List (Str × Str × Pos))
    (ha : ProperAlias a) (hb : ProperAlias b) :
    GetResourcesInFile (mkZappedFile a (callsItems calls)) =
      GetResourcesInFile (mkZappedFile b (callsItems calls)) := by
  rw [getResourcesInFile_items a (callsItems calls) ha (neutralItems_callsItems a calls),
    getResourcesInFile_items b (callsItems calls) hb (neutralItems_callsItems b calls)]

theorem claim_C2_alias_invariance_witness :
    ProperAlias ("z".toList) ∧ ProperAlias ("zapped".toList) ∧
      GetResourcesInFile (mkZappedFile ("z".toList)
          (callsItems [("k".toList, "p".toList, 0)])) =
        GetResourcesInFile (mkZappedFile ("zapped".toList)
          (callsItems [("k".toList, "p".toList, 0)])) := by
  have ha : ProperAlias ("z".toList) := by refine ⟨?_, ?_, ?_⟩ <;> decide
  have hb : ProperAlias ("zapped".toList) := by refine ⟨?_, ?_, ?_⟩ <;> decide
  exact ⟨ha, hb, claim_C2_alias_invariance ("z".toList) ("zapped".toList)
    [("k".toList, "p".toList, 0)] ha hb⟩

/-- C5 (confirmed): a call whose first argument is not a string literal
produces exactly one `BadArgumentType` diagnostic, positioned at that
argument node; the call contributes no resource at all (neither key nor
path), and well-formed calls before and after it in the same file are
still extracted, in order. -/
theorem claim_C5_bad_first_argument (al : Str) (pre post : List FileItem)
    (pos : Pos) (bad : Node) (pl : Str) (hp : ProperAlias al)
    (hb : BadArgNode bad) (hpre : NeutralItems al pre) (hpost : NeutralItems al post) :
    GetResourcesInFile ⟨[⟨zappedPathValue, some al⟩],
        renderItems al pre ++ badCallNodes al pos bad pl ++ renderItems al post⟩ =
      (extractItems pre ++ extractItems post, [⟨bad.pos, .errorBadType⟩]) := by
  unfold GetResourcesInFile
  rw [getZappedImportName_mk]
  rw [if_neg (by rintro (h | h | h) <;> [exact hp.1 h; exact hp.2.1 h; exact hp.2.2 h])]
  have h1 := runNodes_renderItems al pre hpre [] []
  have h2 := runNodes_badCallNodes al pos bad pl hb (extractItems pre) []
  have h3 := runNodes_renderItems al post hpost (extractItems pre) [⟨bad.pos, .errorBadType⟩]
  unfold parseFile
  simp only [runNodes] at h1 h2 h3 ⊢
  rw [List.foldl_append, List.foldl_append, h1]
  simp only [List.nil_append] at h2 ⊢
  rw [h2, h3]

theorem claim_C5_bad_first_argument_witness :
    ProperAlias ("zapped".toList) ∧ BadArgNode ⟨7, .ident ("x".toList)⟩ ∧
      GetResourcesInFile ⟨[⟨zappedPathValue, some ("zapped".toList)⟩],
          renderItems ("zapped".toList) [] ++
            badCallNodes ("zapped".toList) 3 ⟨7, .ident ("x".toList)⟩ ("p".toList) ++
            renderItems ("zapped".toList) [.call ("k2".toList) ("p2".toList) 20]⟩ =
        ([⟨"k2".toList, "p2".toList⟩], [⟨7, .errorBadType⟩]) := by
  have hp : ProperAlias ("zapped".toList) := by refine ⟨?_, ?_, ?_⟩ <;> decide
  have hb : BadArgNode ⟨7, .ident ("x".toList)⟩ := trivial
  have hpre : NeutralItems ("zapped".toList) [] := by intro n hm; cases hm
  have hpost : NeutralItems ("zapped".toList) [.call ("k2".toList) ("p2".toList) 20] := by
    intro n hm
    rcases List.mem_cons.mp hm with h | h
    · cases h
    · cases h
  have h := claim_C5_bad_first_argument ("zapped".toList) []
    [.call ("k2".toList) ("p2".toList) 20] 3 ⟨7, .ident ("x".toList)⟩ ("p".toList)
    hp hb hpre hpost
  exact ⟨hp, hb, by rw [h]; rfl⟩

/-- C10 (confirmed): the scanner's state machine only ever enters
`ExpectingPath` immediately after appending a resource, so for every
prefix of every node sequence the indexing `resources[len(resources)-1]`
in `resolveBasicLit` is in bounds; and for every parsed string literal
(whose raw value carries its surrounding quotes) the Go slice
`Value[1:len(Value)-1]` is in range and strips exactly the quotes. -/
theorem claim_C10_parse_safety (imp : Str) :
    (∀ pfx : List Node, ScanInv (runNodes imp ⟨.NilState, [], []⟩ pfx)) ∧
      (∀ v inner : Str, v = quoteStr inner →
        GoSliceInRange v ∧ stripQuotes v = inner) := by
  constructor
  · intro pfx
    exact runNodes_scanInv imp pfx ⟨.NilState, [], []⟩ (by intro h; cases h)
  · intro v inner hv
    subst hv
    have hlen : (quoteStr inner).length = inner.length + 2 := by simp [quoteStr]
    refine ⟨⟨?_, Nat.sub_le _ _⟩, stripQuotes_quoteStr inner⟩
    rw [hlen]
    omega

theorem claim_C10_parse_safety_witness :
    ScanInv (runNodes ("zapped".toList) ⟨.NilState, [], []⟩
        (callNodes ("zapped".toList) ("k".toList) ("p".toList) 0)) ∧
      GoSliceInRange (quoteStr ("k".toList)) ∧
        stripQuotes (quoteStr ("k".toList)) = "k".toList := by
  have h := claim_C10_parse_safety ("zapped".toList)
  have h2 := h.2 (quoteStr ("k".toList)) ("k".toList) rfl
  exact ⟨h.1 (callNodes ("zapped".toList) ("k".toList) ("p".toList) 0), h2.1, h2.2⟩

/-! ## Theorems: collector infrastructure -/

theorem joinPath_length (a b : Str) : (joinPath a b).length = a.length + b.length + 1 := by
  simp [joinPath]
  omega

theorem collectEntries_nil (recur : Str → CState → Except (List CErr) Dir × CState)
    (fs : Fs) (dpath : Str) (acc : Dir) (errs : List CErr) (st : CState) :
    collectEntries recur fs dpath [] acc errs st = (acc, errs, st) := rfl

theorem collectEntries_cons_skip (recur : Str → CState → Except (List CErr) Dir × CState)
    (fs : Fs) (dpath name : Str) (isDir : Bool) (rest : List (Str × Bool))
    (acc : Dir) (errs : List CErr) (st : CState) (h : name ∈ skipNames) :
    collectEntries recur fs dpath ((name, isDir) :: rest) acc errs st =
      collectEntries recur fs dpath rest acc errs st := by
  rw [collectEntries.eq_def]
  dsimp only
  rw [if_pos h]

theorem collectEntries_cons_dir_ok (recur : Str → CState → Except (List CErr) Dir × CState)
    (fs : Fs) (dpath name : Str) (rest : List (Str × Bool))
    (acc : Dir) (errs : List CErr) (st : CState) (sub : Dir) (st' : CState)
    (h : name ∉ skipNames) (hr : recur (joinPath dpath name) st = (.ok sub, st')) :
    collectEntries recur fs dpath ((name, true) :: rest) acc errs st =
      collectEntries recur fs dpath rest
        { acc with SubDirs := acc.SubDirs ++ [joinPath dpath name] } errs
        { st' with dirs := insertReplace (joinPath dpath name) sub st'.dirs } := by
  rw [collectEntries.eq_def]
  dsimp only
  rw [if_neg h, hr]

theorem collectEntries_cons_dir_err (recur : Str → CState → Except (List CErr) Dir × CState)
    (fs : Fs) (dpath name : Str) (rest : List (Str × Bool))
    (acc : Dir) (errs : List CErr) (st : CState) (es : List CErr) (st' : CState)
    (h : name ∉ skipNames) (hr : recur (joinPath dpath name) st = (.error es, st')) :
    collectEntries recur fs dpath ((name, true) :: rest) acc errs st =
      collectEntries recur fs dpath rest acc (errs ++ es) st' := by
  rw [collectEntries.eq_def]
  dsimp only
  rw [if_neg h, hr]

theorem collectEntries_cons_file (recur : Str → CState → Except (List CErr) Dir × CState)
    (fs : Fs) (dpath name : Str) (rest : List (Str × Bool))
    (acc : Dir) (errs : List CErr) (st : CState) (content : Str)
    (h : name ∉ skipNames) (hf : fs (joinPath dpath name) = .file content) :
    collectEntries recur fs dpath ((name, false) :: rest) acc errs st =
      collectEntries recur fs dpath rest
        { acc with Files := acc.Files ++ [(name, content)] } errs
        { st with log := st.log ++ [joinPath dpath name] } := by
  rw [collectEntries.eq_def]
  dsimp only
  rw [if_neg h, hf]

theorem collectEntries_cons_file_bad (recur : Str → CState → Except (List CErr) Dir × CState)
    (fs : Fs) (dpath name : Str) (rest : List (Str × Bool))
    (acc : Dir) (errs : List CErr) (st : CState)
    (h : name ∉ skipNames) (hf : isFileEntry (fs (joinPath dpath name)) = false) :
    collectEntries recur fs dpath ((name, false) :: rest) acc errs st =
      collectEntries recur fs dpath rest acc
        (errs ++ [.readFile (joinPath dpath name)]) st := by
  rw [collectEntries.eq_def]
  dsimp only
  rw [if_neg h]
  cases hfs : fs (joinPath dpath name) with
  | file content => rw [hfs] at hf; cases hf
  | dir e' => rfl
  | unreadable => rfl
  | missing => rfl

theorem collectEntries_preserves (Q : List (Str × Dir) → Prop)
    (hQ : ∀ k v l, Q l → Q (insertReplace k v l))
    (recur : Str → CState → Except (List CErr) Dir × CState)
    (hrec : ∀ q st, Q st.dirs → Q ((recur q st).2).dirs)
    (fs : Fs) (dpath : Str) :
    ∀ (entries : List (Str × Bool)) (acc : Dir) (errs : List CErr) (st : CState),
      Q st.dirs → Q ((collectEntries recur fs dpath entries acc errs st).2.2).dirs := by
  intro entries
  induction entries with
  | nil => intro acc errs st h; exact h
  | cons e rest ih =>
    intro acc errs st h
    obtain ⟨name, isDir⟩ := e
    by_cases hskip : name ∈ skipNames
    · rw [collectEntries_cons_skip recur fs dpath name isDir rest acc errs st hskip]
      exact ih _ _ _ h
    · cases isDir with
      | true =>
        cases hr : recur (joinPath dpath name) st with
        | mk exc st' =>
          have hst' : Q st'.dirs := by
            have hh := hrec (joinPath dpath name) st h
            rw [hr] at hh
            exact hh
          cases exc with
          | ok sub =>
            rw [collectEntries_cons_dir_ok recur fs dpath name rest acc errs st sub st' hskip hr]
            exact ih _ _ _ (hQ _ _ _ hst')
          | error es =>
            rw [collectEntries_cons_dir_err recur fs dpath name rest acc errs st es st' hskip hr]
            exact ih _ _ _ hst'
      | false =>
        cases hf : fs (joinPath dpath name) with
        | file content =>
          rw [collectEntries_cons_file recur fs dpath name rest acc errs st content hskip hf]
          exact ih _ _ _ h
        | dir entries' =>
          rw [collectEntries_cons_file_bad recur fs dpath name rest acc errs st hskip
            (by rw [hf]; rfl)]
          exact ih _ _ _ h
        | unreadable =>
          rw [collectEntries_cons_file_bad recur fs dpath name rest acc errs st hskip
            (by rw [hf]; rfl)]
          exact ih _ _ _ h
        | missing =>
          rw [collectEntries_cons_file_bad recur fs dpath name rest acc errs st hskip
            (by rw [hf]; rfl)]
          exact ih _ _ _ h

theorem collectDir_preserves (Q : List (Str × Dir) → Prop)
    (hQ : ∀ k v l, Q l → Q (insertReplace k v l)) (fs : Fs) :
    ∀ (fuel : Nat) (dpath : Str) (st : CState), Q st.dirs →
      Q (((collectDir fs fuel dpath st).2)).dirs := by
  intro fuel
  induction fuel with
  | zero => intro dpath st h; exact h
  | succ fuel ih =>
    intro dpath st h
    rw [collectDir]
    cases hf : fs dpath with
    | dir entries =>
      dsimp only
      have hce := collectEntries_preserves Q hQ (collectDir fs fuel)
        (fun q st h => ih q st h) fs dpath entries ⟨[], []⟩ [] st h
      cases hc : collectEntries (collectDir fs fuel) fs dpath entries ⟨[], []⟩ [] st with
      | mk d rest =>
        obtain ⟨errs, st'⟩ := rest
        rw [hc] at hce
        exact hce
    | file content => exact h
    | unreadable => exact h
    | missing => exact h

theorem embedStep_skip (fs : Fs) (fuel : Nat) (st : EmbedSt) (res : Resource)
    (h : (alookup res.Path st.cst.dirs).isSome = true) :
    embedStep fs fuel st res = st := by
  unfold embedStep
  cases ha : alookup res.Path st.cst.dirs with
  | some d => rfl
  | none => rw [ha] at h; cases h

theorem insertReplace_keeps_isSome {p k : Str} {v : Dir} {l : List (Str × Dir)}
    (h : (alookup p l).isSome = true) :
    (alookup p (insertReplace k v l)).isSome = true := by
  rw [alookup_insertReplace]
  by_cases hk : k = p
  · simp [hk]
  · simpa [hk] using h

theorem embedStep_preserves_isSome (fs : Fs) (fuel : Nat) (st : EmbedSt)
    (res : Resource) (p : Str) (h : (alookup p st.cst.dirs).isSome = true) :
    (alookup p (embedStep fs fuel st res).cst.dirs).isSome = true := by
  unfold embedStep
  cases ha : alookup res.Path st.cst.dirs with
  | some d => exact h
  | none =>
    have hQ := collectDir_preserves (fun l => (alookup p l).isSome = true)
      (fun k v l hl => insertReplace_keeps_isSome hl) fs fuel res.Path st.cst h
    cases hc : collectDir fs fuel res.Path st.cst with
    | mk exc st' =>
      rw [hc] at hQ
      cases exc with
      | ok d => exact insertReplace_keeps_isSome hQ
      | error es => exact hQ

theorem embedLoop_preserves_isSome (fs : Fs) (fuel : Nat) :
    ∀ (rs : List Resource) (st : EmbedSt) (p : Str),
      (alookup p st.cst.dirs).isSome = true →
      (alookup p (rs.foldl (embedStep fs fuel) st).cst.dirs).isSome = true := by
  intro rs
  induction rs with
  | nil => intro st p h; exact h
  | cons r rest ih =>
    intro st p h
    exact ih _ p (embedStep_preserves_isSome fs fuel st r p h)

theorem embedStep_preserves_nodupKeys (fs : Fs) (fuel : Nat) (st : EmbedSt)
    (res : Resource) (h : NodupKeys st.cst.dirs) :
    NodupKeys (embedStep fs fuel st res).cst.dirs := by
  unfold embedStep
  cases ha : alookup res.Path st.cst.dirs with
  | some d => exact h
  | none =>
    have hQ := collectDir_preserves NodupKeys
      (fun k v l hl => nodupKeys_insertReplace k v l hl) fs fuel res.Path st.cst h
    cases hc : collectDir fs fuel res.Path st.cst with
    | mk exc st' =>
      rw [hc] at hQ
      cases exc with
      | ok d => exact nodupKeys_insertReplace _ _ _ hQ
      | error es => exact hQ

theorem embedDirectories_nodupKeys (fs : Fs) (fuel : Nat) (rs : List Resource) :
    NodupKeys (EmbedDirectories fs fuel rs).cst.dirs := by
  unfold EmbedDirectories
  have : ∀ (l : List Resource) (st : EmbedSt), NodupKeys st.cst.dirs →
      NodupKeys (l.foldl (embedStep fs fuel) st).cst.dirs := by
    intro l
    induction l with
    | nil => intro st h; exact h
    | cons r rest ih =>
      intro st h
      exact ih _ (embedStep_preserves_nodupKeys fs fuel st r h)
  exact this rs ⟨⟨[], []⟩, []⟩ List.Pairwise.nil

/-! ## Theorems: collector claims C6 and C8 -/

/-- C6 counterexample: with resources `[/a/b, /a/b, /a]` — two of which
resolve to the same absolute path `/a/b` — the file `/a/b/f` is read from
disk twice: once when `/a/b` is collected as a root, and again when the
collection of `/a` recurses into `/a/b` (the recursive walk does not
consult the dedup map).  So the files of the duplicated directory are not
"read exactly once". -/
theorem claim_C6_counterexample :
    (resC6.map Resource.Path).count ("/a/b".toList) = 2 ∧
      (EmbedDirectories fsC6 5 resC6).cst.log.count ("/a/b/f".toList) = 2 := by
  constructor
  · decide
  · decide

/-- C6 (corrected): the result maps every path to at most one entry (the
`dirs` mapping has pairwise-distinct keys), and once a duplicated path has
been registered by an earlier resource, a later resource with the same
path is skipped entirely — removing it from the resource list does not
change the run at all, so it causes no collection and no reads. -/
theorem claim_C6_dedup (fs : Fs) (fuel : Nat) (pre mid post : List Resource)
    (r r' : Resource) (hdup : r'.Path = r.Path)
    (hreg : (alookup r.Path (EmbedDirectories fs fuel (pre ++ [r])).cst.dirs).isSome = true) :
    EmbedDirectories fs fuel (pre ++ r :: mid ++ r' :: post) =
      EmbedDirectories fs fuel (pre ++ r :: mid ++ post) ∧
      NodupKeys (EmbedDirectories fs fuel (pre ++ r :: mid ++ r' :: post)).cst.dirs := by
  refine ⟨?_, embedDirectories_nodupKeys fs fuel _⟩
  unfold EmbedDirectories at hreg ⊢
  have hreg₂ : (alookup r'.Path
      (List.foldl (embedStep fs fuel) ⟨⟨[], []⟩, []⟩ (pre ++ r :: mid)).cst.dirs).isSome =
      true := by
    rw [hdup]
    have hassoc : pre ++ r :: mid = (pre ++ [r]) ++ mid := by
      rw [List.append_assoc, List.singleton_append]
    rw [hassoc, List.foldl_append]
    exact embedLoop_preserves_isSome fs fuel mid _ r.Path hreg
  calc List.foldl (embedStep fs fuel) ⟨⟨[], []⟩, []⟩ (pre ++ r :: mid ++ r' :: post)
      = List.foldl (embedStep fs fuel)
          (List.foldl (embedStep fs fuel) ⟨⟨[], []⟩, []⟩ (pre ++ r :: mid)) (r' :: post) :=
        List.foldl_append _ _ _ _
    _ = List.foldl (embedStep fs fuel)
          (List.foldl (embedStep fs fuel) ⟨⟨[], []⟩, []⟩ (pre ++ r :: mid)) post := by
        rw [List.foldl_cons, embedStep_skip fs fuel _ r' hreg₂]
    _ = List.foldl (embedStep fs fuel) ⟨⟨[], []⟩, []⟩ (pre ++ r :: mid ++ post) :=
        (List.foldl_append _ _ _ _).symm

theorem claim_C6_dedup_witness :
    (alookup ("/a/b".toList)
        (EmbedDirectories fsC6 5 [⟨"K1".toList, "/a/b".toList⟩]).cst.dirs).isSome = true ∧
      EmbedDirectories fsC6 5
          [⟨"K1".toList, "/a/b".toList⟩, ⟨"K2".toList, "/a/b".toList⟩,
           ⟨"R".toList, "/a".toList⟩] =
        EmbedDirectories fsC6 5
          [⟨"K1".toList, "/a/b".toList⟩, ⟨"R".toList, "/a".toList⟩] ∧
      NodupKeys (EmbedDirectories fsC6 5 resC6).cst.dirs := by
  have hreg : (alookup ("/a/b".toList)
      (EmbedDirectories fsC6 5 ([] ++ [⟨"K1".toList, "/a/b".toList⟩])).cst.dirs).isSome =
      true := by decide
  have h := claim_C6_dedup fsC6 5 [] [] [⟨"R".toList, "/a".toList⟩]
    ⟨"K1".toList, "/a/b".toList⟩ ⟨"K2".toList, "/a/b".toList⟩ rfl hreg
  refine ⟨by decide, h.1, ?_⟩
  have h2 := h.2
  simpa using h2

/-- Processing a run of entries containing an unreadable (non-directory)
entry equals processing the entries around it, with the entry's `readFile`
error inserted into the error accumulator at its position: sibling
collection continues identically. -/
theorem collectEntries_badFile (recur : Str → CState → Except (List CErr) Dir × CState)
    (fs : Fs) (dpath name : Str) (e₂ : List (Str × Bool))
    (hskip : name ∉ skipNames) (hbad : isFileEntry (fs (joinPath dpath name)) = false) :
    ∀ (e₁ : List (Str × Bool)) (acc : Dir) (errs : List CErr) (st : CState),
      collectEntries recur fs dpath (e₁ ++ (name, false) :: e₂) acc errs st =
        collectEntries recur fs dpath e₂
          (collectEntries recur fs dpath e₁ acc errs st).1
          ((collectEntries recur fs dpath e₁ acc errs st).2.1 ++
            [CErr.readFile (joinPath dpath name)])
          (collectEntries recur fs dpath e₁ acc errs st).2.2 := by
  intro e₁
  induction e₁ with
  | nil =>
    intro acc errs st
    rw [List.nil_append,
      collectEntries_cons_file_bad recur fs dpath name e₂ acc errs st hskip hbad]
    rfl
  | cons e rest ih =>
    intro acc errs st
    obtain ⟨nm, isd⟩ := e
    rw [List.cons_append]
    by_cases hsk : nm ∈ skipNames
    · rw [collectEntries_cons_skip recur fs dpath nm isd
        (rest ++ (name, false) :: e₂) acc errs st hsk,
        collectEntries_cons_skip recur fs dpath nm isd rest acc errs st hsk]
      exact ih acc errs st
    · cases isd with
      | true =>
        cases hr : recur (joinPath dpath nm) st with
        | mk exc st' =>
          cases exc with
          | ok sub =>
            rw [collectEntries_cons_dir_ok recur fs dpath nm
              (rest ++ (name, false) :: e₂) acc errs st sub st' hsk hr,
              collectEntries_cons_dir_ok recur fs dpath nm rest acc errs st sub st' hsk hr]
            exact ih _ _ _
          | error es =>
            rw [collectEntries_cons_dir_err recur fs dpath nm
              (rest ++ (name, false) :: e₂) acc errs st es st' hsk hr,
              collectEntries_cons_dir_err recur fs dpath nm rest acc errs st es st' hsk hr]
            exact ih _ _ _
      | false =>
        cases hf2 : fs (joinPath dpath nm) with
        | file content =>
          rw [collectEntries_cons_file recur fs dpath nm
            (rest ++ (name, false) :: e₂) acc errs st content hsk hf2,
            collectEntries_cons_file recur fs dpath nm rest acc errs st content hsk hf2]
          exact ih _ _ _
        | dir e' =>
          rw [collectEntries_cons_file_bad recur fs dpath nm
            (rest ++ (name, false) :: e₂) acc errs st hsk (by rw [hf2]; rfl),
            collectEntries_cons_file_bad recur fs dpath nm rest acc errs st hsk
              (by rw [hf2]; rfl)]
          exact ih _ _ _
        | unreadable =>
          rw [collectEntries_cons_file_bad recur fs dpath nm
            (rest ++ (name, false) :: e₂) acc errs st hsk (by rw [hf2]; rfl),
            collectEntries_cons_file_bad recur fs dpath nm rest acc errs st hsk
              (by rw [hf2]; rfl)]
          exact ih _ _ _
        | missing =>
          rw [collectEntries_cons_file_bad recur fs dpath nm
            (rest ++ (name, false) :: e₂) acc errs st hsk (by rw [hf2]; rfl),
            collectEntries_cons_file_bad recur fs dpath nm rest acc errs st hsk
              (by rw [hf2]; rfl)]
          exact ih _ _ _

/-- The error accumulator only ever grows: the result's errors extend the
input errors. -/
theorem collectEntries_errs_extend (recur : Str → CState → Except (List CErr) Dir × CState)
    (fs : Fs) (dpath : Str) :
    ∀ (entries : List (Str × Bool)) (acc : Dir) (errs : List CErr) (st : CState),
      ∃ extra, (collectEntries recur fs dpath entries acc errs st).2.1 = errs ++ extra := by
  intro entries
  induction entries with
  | nil =>
    intro acc errs st
    exact ⟨[], by rw [collectEntries_nil, List.append_nil]⟩
  | cons e rest ih =>
    intro acc errs st
    obtain ⟨nm, isd⟩ := e
    by_cases hsk : nm ∈ skipNames
    · rw [collectEntries_cons_skip recur fs dpath nm isd rest acc errs st hsk]
      exact ih _ _ _
    · cases isd with
      | true =>
        cases hr : recur (joinPath dpath nm) st with
        | mk exc st' =>
          cases exc with
          | ok sub =>
            rw [collectEntries_cons_dir_ok recur fs dpath nm rest acc errs st sub st' hsk hr]
            exact ih _ _ _
          | error es =>
            rw [collectEntries_cons_dir_err recur fs dpath nm rest acc errs st es st' hsk hr]
            obtain ⟨extra, hx⟩ := ih
              acc (errs ++ es) st'
            exact ⟨es ++ extra, by rw [hx, List.append_assoc]⟩
      | false =>
        cases hf2 : fs (joinPath dpath nm) with
        | file content =>
          rw [collectEntries_cons_file recur fs dpath nm rest acc errs st content hsk hf2]
          exact ih _ _ _
        | dir e' =>
          rw [collectEntries_cons_file_bad recur fs dpath nm rest acc errs st hsk
            (by rw [hf2]; rfl)]
          obtain ⟨extra, hx⟩ := ih acc (errs ++ [.readFile (joinPath dpath nm)]) st
          exact ⟨[.readFile (joinPath dpath nm)] ++ extra, by rw [hx, List.append_assoc]⟩
        | unreadable =>
          rw [collectEntries_cons_file_bad recur fs dpath nm rest acc errs st hsk
            (by rw [hf2]; rfl)]
          obtain ⟨extra, hx⟩ := ih acc (errs ++ [.readFile (joinPath dpath nm)]) st
          exact ⟨[.readFile (joinPath dpath nm)] ++ extra, by rw [hx, List.append_assoc]⟩
        | missing =>
          rw [collectEntries_cons_file_bad recur fs dpath nm rest acc errs st hsk
            (by rw [hf2]; rfl)]
          obtain ⟨extra, hx⟩ := ih acc (errs ++ [.readFile (joinPath dpath nm)]) st
          exact ⟨[.readFile (joinPath dpath nm)] ++ extra, by rw [hx, List.append_assoc]⟩

/-- Collecting under `dpath` never touches bindings at paths no longer than
`dpath` (all registrations happen at strictly longer joined paths). -/
theorem collectEntries_alookup_short
    (recur : Str → CState → Except (List CErr) Dir × CState) (fs : Fs) (dpath p : Str)
    (hrec : ∀ q st, p.length < q.length →
      alookup p ((recur q st).2).dirs = alookup p st.dirs)
    (hp : p.length ≤ dpath.length) :
    ∀ (entries : List (Str × Bool)) (acc : Dir) (errs : List CErr) (st : CState),
      alookup p ((collectEntries recur fs dpath entries acc errs st).2.2).dirs =
        alookup p st.dirs := by
  intro entries
  induction entries with
  | nil => intro acc errs st; rw [collectEntries_nil]
  | cons e rest ih =>
    intro acc errs st
    obtain ⟨nm, isd⟩ := e
    have hlong : p.length < (joinPath dpath nm).length := by
      rw [joinPath_length]
      omega
    by_cases hsk : nm ∈ skipNames
    · rw [collectEntries_cons_skip recur fs dpath nm isd rest acc errs st hsk]
      exact ih _ _ _
    · cases isd with
      | true =>
        cases hr : recur (joinPath dpath nm) st with
        | mk exc st' =>
          have hst' : alookup p st'.dirs = alookup p st.dirs := by
            have hh := hrec (joinPath dpath nm) st hlong
            rw [hr] at hh
            exact hh
          cases exc with
          | ok sub =>
            rw [collectEntries_cons_dir_ok recur fs dpath nm rest acc errs st sub st' hsk hr,
              ih _ _ _]
            show alookup p (insertReplace (joinPath dpath nm) sub st'.dirs) = _
            rw [alookup_insertReplace,
              if_neg (fun he => by rw [he] at hlong; omega)]
            exact hst'
          | error es =>
            rw [collectEntries_cons_dir_err recur fs dpath nm rest acc errs st es st' hsk hr,
              ih _ _ _]
            exact hst'
      | false =>
        cases hf2 : fs (joinPath dpath nm) with
        | file content =>
          rw [collectEntries_cons_file recur fs dpath nm rest acc errs st content hsk hf2,
            ih _ _ _]
        | dir e' =>
          rw [collectEntries_cons_file_bad recur fs dpath nm rest acc errs st hsk
            (by rw [hf2]; rfl), ih _ _ _]
        | unreadable =>
          rw [collectEntries_cons_file_bad recur fs dpath nm rest acc errs st hsk
            (by rw [hf2]; rfl), ih _ _ _]
        | missing =>
          rw [collectEntries_cons_file_bad recur fs dpath nm rest acc errs st hsk
            (by rw [hf2]; rfl), ih _ _ _]

theorem collectDir_alookup_short (fs : Fs) :
    ∀ (fuel : Nat) (dpath : Str) (st : CState) (p : Str), p.length ≤ dpath.length →
      alookup p ((collectDir fs fuel dpath st).2).dirs = alookup p st.dirs := by
  intro fuel
  induction fuel with
  | zero => intro dpath st p hp; rfl
  | succ fuel ih =>
    intro dpath st p hp
    rw [collectDir]
    cases hf : fs dpath with
    | dir entries =>
      dsimp only
      have hce := collectEntries_alookup_short (collectDir fs fuel) fs dpath p
        (fun q st hq => ih q st p (Nat.le_of_lt hq)) hp entries ⟨[], []⟩ [] st
      cases hc : collectEntries (collectDir fs fuel) fs dpath entries ⟨[], []⟩ [] st with
      | mk d rest =>
        obtain ⟨errs, st'⟩ := rest
        rw [hc] at hce
        exact hce
    | file content => rfl
    | unreadable => rfl
    | missing => rfl

/-- A directory containing an unreadable file fails as a whole: `dfn`
returns a non-nil aggregate that contains the file's error. -/
theorem collectDir_badFile_error (fs : Fs) (dpath name : Str)
    (e₁ e₂ : List (Str × Bool)) (hskip : name ∉ skipNames)
    (hbad : isFileEntry (fs (joinPath dpath name)) = false)
    (hdir : fs dpath = .dir (e₁ ++ (name, false) :: e₂)) (fuel : Nat) (st : CState) :
    ∃ es st', collectDir fs (fuel + 1) dpath st = (.error es, st') ∧
      CErr.readFile (joinPath dpath name) ∈ es := by
  rw [collectDir, hdir]
  dsimp only
  have hA := collectEntries_badFile (collectDir fs fuel) fs dpath name e₂ hskip hbad
    e₁ ⟨[], []⟩ [] st
  obtain ⟨extra, hx⟩ := collectEntries_errs_extend (collectDir fs fuel) fs dpath e₂
    (collectEntries (collectDir fs fuel) fs dpath e₁ ⟨[], []⟩ [] st).1
    ((collectEntries (collectDir fs fuel) fs dpath e₁ ⟨[], []⟩ [] st).2.1 ++
      [CErr.readFile (joinPath dpath name)])
    (collectEntries (collectDir fs fuel) fs dpath e₁ ⟨[], []⟩ [] st).2.2
  cases hc : collectEntries (collectDir fs fuel) fs dpath
      (e₁ ++ (name, false) :: e₂) ⟨[], []⟩ [] st with
  | mk d rest =>
    obtain ⟨errsF, stF⟩ := rest
    have herrs : errsF =
        ((collectEntries (collectDir fs fuel) fs dpath e₁ ⟨[], []⟩ [] st).2.1 ++
          [CErr.readFile (joinPath dpath name)]) ++ extra := by
      have := hA
      rw [hc] at this
      have h21 := congrArg (fun t => t.2.1) this
      dsimp only at h21
      rw [h21, hx]
    have hmem : CErr.readFile (joinPath dpath name) ∈ errsF := by
      rw [herrs]
      simp
    have hne : ¬ errsF = [] := by
      intro he
      rw [he] at hmem
      cases hmem
    rw [if_neg hne]
    exact ⟨errsF, stF, rfl, hmem⟩

/-- When the collection of a resource's path fails, the top-level loop does
not register that path: the enclosing tree is omitted from the result. -/
theorem embedStep_badFile_not_registered (fs : Fs) (dpath name : Str)
    (e₁ e₂ : List (Str × Bool)) (hskip : name ∉ skipNames)
    (hbad : isFileEntry (fs (joinPath dpath name)) = false)
    (hdir : fs dpath = .dir (e₁ ++ (name, false) :: e₂))
    (fuel : Nat) (est : EmbedSt) (res : Resource) (hres : res.Path = dpath)
    (hnone : alookup dpath est.cst.dirs = none) :
    alookup dpath (embedStep fs fuel est res).cst.dirs = none := by
  unfold embedStep
  rw [hres, hnone]
  cases fuel with
  | zero => exact hnone
  | succ k =>
    obtain ⟨es, st', heq, hmem⟩ := collectDir_badFile_error fs dpath name e₁ e₂
      hskip hbad hdir k est.cst
    rw [heq]
    have := collectDir_alookup_short fs (k + 1) dpath est.cst dpath (Nat.le_refl _)
    rw [heq] at this
    dsimp only at this ⊢
    rw [this]
    exact hnone

/-- `dfn` on a path that is not a readable directory fails immediately:
`ioutil.ReadDir` errors, and the recursion returns the `readDir` error
without touching the accumulated state. -/
theorem collectDir_not_dir (fs : Fs) (k : Nat) (dpath : Str) (st : CState)
    (h : isDirEntry (fs dpath) = false) :
    collectDir fs (k + 1) dpath st = (.error [CErr.readDir dpath], st) := by
  rw [collectDir]
  cases hf : fs dpath with
  | dir entries => rw [hf] at h; cases h
  | file content => rfl
  | unreadable => rfl
  | missing => rfl

/-- Processing a run of entries containing an unreadable directory entry
(a directory entry whose `ReadDir` fails) equals processing the entries
around it, with the entry's `readDir` error inserted into the error
accumulator at its position: sibling collection continues identically. -/
theorem collectEntries_badDir (fs : Fs) (k : Nat) (dpath name : Str)
    (e₂ : List (Str × Bool))
    (hskip : name ∉ skipNames) (hbad : isDirEntry (fs (joinPath dpath name)) = false) :
    ∀ (e₁ : List (Str × Bool)) (acc : Dir) (errs : List CErr) (st : CState),
      collectEntries (collectDir fs (k + 1)) fs dpath (e₁ ++ (name, true) :: e₂)
          acc errs st =
        collectEntries (collectDir fs (k + 1)) fs dpath e₂
          (collectEntries (collectDir fs (k + 1)) fs dpath e₁ acc errs st).1
          ((collectEntries (collectDir fs (k + 1)) fs dpath e₁ acc errs st).2.1 ++
            [CErr.readDir (joinPath dpath name)])
          (collectEntries (collectDir fs (k + 1)) fs dpath e₁ acc errs st).2.2 := by
  intro e₁
  induction e₁ with
  | nil =>
    intro acc errs st
    rw [List.nil_append,
      collectEntries_cons_dir_err (collectDir fs (k + 1)) fs dpath name e₂ acc errs st
        [CErr.readDir (joinPath dpath name)] st hskip
        (collectDir_not_dir fs k (joinPath dpath name) st hbad)]
    rfl
  | cons e rest ih =>
    intro acc errs st
    obtain ⟨nm, isd⟩ := e
    rw [List.cons_append]
    by_cases hsk : nm ∈ skipNames
    · rw [collectEntries_cons_skip (collectDir fs (k + 1)) fs dpath nm isd
        (rest ++ (name, true) :: e₂) acc errs st hsk,
        collectEntries_cons_skip (collectDir fs (k + 1)) fs dpath nm isd rest
          acc errs st hsk]
      exact ih acc errs st
    · cases isd with
      | true =>
        cases hr : collectDir fs (k + 1) (joinPath dpath nm) st with
        | mk exc st' =>
          cases exc with
          | ok sub =>
            rw [collectEntries_cons_dir_ok (collectDir fs (k + 1)) fs dpath nm
              (rest ++ (name, true) :: e₂) acc errs st sub st' hsk hr,
              collectEntries_cons_dir_ok (collectDir fs (k + 1)) fs dpath nm rest
                acc errs st sub st' hsk hr]
            exact ih _ _ _
          | error es =>
            rw [collectEntries_cons_dir_err (collectDir fs (k + 1)) fs dpath nm
              (rest ++ (name, true) :: e₂) acc errs st es st' hsk hr,
              collectEntries_cons_dir_err (collectDir fs (k + 1)) fs dpath nm rest
                acc errs st es st' hsk hr]
            exact ih _ _ _
      | false =>
        cases hf2 : fs (joinPath dpath nm) with
        | file content =>
          rw [collectEntries_cons_file (collectDir fs (k + 1)) fs dpath nm
            (rest ++ (name, true) :: e₂) acc errs st content hsk hf2,
            collectEntries_cons_file (collectDir fs (k + 1)) fs dpath nm rest
              acc errs st content hsk hf2]
          exact ih _ _ _
        | dir e' =>
          rw [collectEntries_cons_file_bad (collectDir fs (k + 1)) fs dpath nm
            (rest ++ (name, true) :: e₂) acc errs st hsk (by rw [hf2]; rfl),
            collectEntries_cons_file_bad (collectDir fs (k + 1)) fs dpath nm rest
              acc errs st hsk (by rw [hf2]; rfl)]
          exact ih _ _ _
        | unreadable =>
          rw [collectEntries_cons_file_bad (collectDir fs (k + 1)) fs dpath nm
            (rest ++ (name, true) :: e₂) acc errs st hsk (by rw [hf2]; rfl),
            collectEntries_cons_file_bad (collectDir fs (k + 1)) fs dpath nm rest
              acc errs st hsk (by rw [hf2]; rfl)]
          exact ih _ _ _
        | missing =>
          rw [collectEntries_cons_file_bad (collectDir fs (k + 1)) fs dpath nm
            (rest ++ (name, true) :: e₂) acc errs st hsk (by rw [hf2]; rfl),
            collectEntries_cons_file_bad (collectDir fs (k + 1)) fs dpath nm rest
              acc errs st hsk (by rw [hf2]; rfl)]
          exact ih _ _ _

/-- A directory containing an unreadable subdirectory fails as a whole:
`dfn` returns a non-nil aggregate that contains the subdirectory's
`readDir` error.  The fuel is at least two so the recursive call into the
subdirectory actually reaches its `ReadDir`. -/
theorem collectDir_badDir_error (fs : Fs) (dpath name : Str)
    (e₁ e₂ : List (Str × Bool)) (hskip : name ∉ skipNames)
    (hbad : isDirEntry (fs (joinPath dpath name)) = false)
    (hdir : fs dpath = .dir (e₁ ++ (name, true) :: e₂)) (k : Nat) (st : CState) :
    ∃ es st', collectDir fs (k + 1 + 1) dpath st = (.error es, st') ∧
      CErr.readDir (joinPath dpath name) ∈ es := by
  rw [collectDir, hdir]
  dsimp only
  have hA := collectEntries_badDir fs k dpath name e₂ hskip hbad e₁ ⟨[], []⟩ [] st
  obtain ⟨extra, hx⟩ := collectEntries_errs_extend (collectDir fs (k + 1)) fs dpath e₂
    (collectEntries (collectDir fs (k + 1)) fs dpath e₁ ⟨[], []⟩ [] st).1
    ((collectEntries (collectDir fs (k + 1)) fs dpath e₁ ⟨[], []⟩ [] st).2.1 ++
      [CErr.readDir (joinPath dpath name)])
    (collectEntries (collectDir fs (k + 1)) fs dpath e₁ ⟨[], []⟩ [] st).2.2
  cases hc : collectEntries (collectDir fs (k + 1)) fs dpath
      (e₁ ++ (name, true) :: e₂) ⟨[], []⟩ [] st with
  | mk d rest =>
    obtain ⟨errsF, stF⟩ := rest
    have herrs : errsF =
        ((collectEntries (collectDir fs (k + 1)) fs dpath e₁ ⟨[], []⟩ [] st).2.1 ++
          [CErr.readDir (joinPath dpath name)]) ++ extra := by
      have := hA
      rw [hc] at this
      have h21 := congrArg (fun t => t.2.1) this
      dsimp only at h21
      rw [h21, hx]
    have hmem : CErr.readDir (joinPath dpath name) ∈ errsF := by
      rw [herrs]
      simp
    have hne : ¬ errsF = [] := by
      intro he
      rw [he] at hmem
      cases hmem
    rw [if_neg hne]
    exact ⟨errsF, stF, rfl, hmem⟩

/-- When a resource's path contains an unreadable subdirectory, the
top-level loop does not register that path: the enclosing tree is omitted
from the result. -/
theorem embedStep_badDir_not_registered (fs : Fs) (dpath name : Str)
    (e₁ e₂ : List (Str × Bool)) (hskip : name ∉ skipNames)
    (hbad : isDirEntry (fs (joinPath dpath name)) = false)
    (hdir : fs dpath = .dir (e₁ ++ (name, true) :: e₂))
    (k : Nat) (est : EmbedSt) (res : Resource) (hres : res.Path = dpath)
    (hnone : alookup dpath est.cst.dirs = none) :
    alookup dpath (embedStep fs (k + 1 + 1) est res).cst.dirs = none := by
  unfold embedStep
  rw [hres, hnone]
  obtain ⟨es, st', heq, hmem⟩ := collectDir_badDir_error fs dpath name e₁ e₂
    hskip hbad hdir k est.cst
  rw [heq]
  have h2 := collectDir_alookup_short fs (k + 1 + 1) dpath est.cst dpath (Nat.le_refl _)
  rw [heq] at h2
  dsimp only at h2 ⊢
  rw [h2]
  exact hnone

/-! ## Theorems: C8 claim -/

/-- C8 counterexample: collecting `/r` — which contains the readable file
`good`, the unreadable file `bad` and the intact subdirectory `sub` — drops
`/r` itself from the result mapping (the error propagates to the root), so
the sibling file `good` appears nowhere in the result, contradicting the
claim that a failing entry does not prevent sibling files from appearing.
The sibling subdirectory `/r/sub` does survive, and the error aggregate is
returned. -/
theorem claim_C8_counterexample :
    alookup ("/r".toList) (EmbedDirectories fsC8 5 resC8).cst.dirs = none ∧
      (∀ pd ∈ (EmbedDirectories fsC8 5 resC8).cst.dirs,
        ("good".toList, "g".toList) ∉ pd.2.Files) ∧
      (alookup ("/r/sub".toList) (EmbedDirectories fsC8 5 resC8).cst.dirs).isSome = true ∧
      (EmbedDirectories fsC8 5 resC8).errs = [CErr.readFile ("/r/bad".toList)] := by
  refine ⟨by decide, by decide, by decide, by decide⟩

/-- C8 (corrected): an unreadable file — and likewise an unreadable
directory, whose recursive `dfn` call fails at its `ReadDir` — produces an
error scoped to that entry while collection of its sibling entries
continues identically (the run on the surrounding entries is unchanged,
with the entry's `readFile` respectively `readDir` error inserted at its
position); the aggregated errors are returned to the caller at the end
(the enclosing `dfn` returns a non-nil aggregate containing the error)
rather than aborting at the first failure; but the enclosing directory
itself is then omitted from the result mapping (its sibling files are
captured only in the dropped in-memory parent), while error-free sibling
subdirectories remain registered.  The first half treats the failing entry
as a non-directory entry `(name, false)` whose `ReadFile` fails; the
second half treats it as a directory entry `(name, true)` whose `ReadDir`
fails, with fuel at least two so the recursive call reaches that
`ReadDir`. -/
theorem claim_C8_partial_failure (fs : Fs) (dpath name : Str)
    (e₁ e₂ : List (Str × Bool)) (hskip : name ∉ skipNames) :
    (isFileEntry (fs (joinPath dpath name)) = false →
      (∀ (recur : Str → CState → Except (List CErr) Dir × CState)
          (acc : Dir) (errs : List CErr) (st : CState),
        collectEntries recur fs dpath (e₁ ++ (name, false) :: e₂) acc errs st =
          collectEntries recur fs dpath e₂
            (collectEntries recur fs dpath e₁ acc errs st).1
            ((collectEntries recur fs dpath e₁ acc errs st).2.1 ++
              [CErr.readFile (joinPath dpath name)])
            (collectEntries recur fs dpath e₁ acc errs st).2.2) ∧
        (∀ (fuel : Nat) (st : CState), fs dpath = .dir (e₁ ++ (name, false) :: e₂) →
          ∃ es st', collectDir fs (fuel + 1) dpath st = (.error es, st') ∧
            CErr.readFile (joinPath dpath name) ∈ es) ∧
        (∀ (fuel : Nat) (est : EmbedSt) (res : Resource), res.Path = dpath →
          fs dpath = .dir (e₁ ++ (name, false) :: e₂) →
          alookup dpath est.cst.dirs = none →
          alookup dpath (embedStep fs fuel est res).cst.dirs = none)) ∧
    (isDirEntry (fs (joinPath dpath name)) = false →
      (∀ (k : Nat) (acc : Dir) (errs : List CErr) (st : CState),
        collectEntries (collectDir fs (k + 1)) fs dpath (e₁ ++ (name, true) :: e₂)
            acc errs st =
          collectEntries (collectDir fs (k + 1)) fs dpath e₂
            (collectEntries (collectDir fs (k + 1)) fs dpath e₁ acc errs st).1
            ((collectEntries (collectDir fs (k + 1)) fs dpath e₁ acc errs st).2.1 ++
              [CErr.readDir (joinPath dpath name)])
            (collectEntries (collectDir fs (k + 1)) fs dpath e₁ acc errs st).2.2) ∧
        (∀ (k : Nat) (st : CState), fs dpath = .dir (e₁ ++ (name, true) :: e₂) →
          ∃ es st', collectDir fs (k + 1 + 1) dpath st = (.error es, st') ∧
            CErr.readDir (joinPath dpath name) ∈ es) ∧
        (∀ (k : Nat) (est : EmbedSt) (res : Resource), res.Path = dpath →
          fs dpath = .dir (e₁ ++ (name, true) :: e₂) →
          alookup dpath est.cst.dirs = none →
          alookup dpath (embedStep fs (k + 1 + 1) est res).cst.dirs = none)) := by
  refine ⟨fun hbad => ⟨fun recur acc errs st =>
      collectEntries_badFile recur fs dpath name e₂ hskip hbad e₁ acc errs st,
    fun fuel st hdir =>
      collectDir_badFile_error fs dpath name e₁ e₂ hskip hbad hdir fuel st,
    fun fuel est res hres hdir hnone =>
      embedStep_badFile_not_registered fs dpath name e₁ e₂ hskip hbad hdir
        fuel est res hres hnone⟩,
    fun hbad => ⟨fun k acc errs st =>
      collectEntries_badDir fs k dpath name e₂ hskip hbad e₁ acc errs st,
    fun k st hdir =>
      collectDir_badDir_error fs dpath name e₁ e₂ hskip hbad hdir k st,
    fun k est res hres hdir hnone =>
      embedStep_badDir_not_registered fs dpath name e₁ e₂ hskip hbad hdir
        k est res hres hnone⟩⟩

theorem claim_C8_partial_failure_witness :
    ("bad".toList ∉ skipNames) ∧
      ("bd".toList ∉ skipNames) ∧
      isFileEntry (fsC8 (joinPath ("/r".toList) ("bad".toList))) = false ∧
      isDirEntry (fsC8d (joinPath ("/q".toList) ("bd".toList))) = false ∧
      collectEntries (collectDir fsC8 4) fsC8 ("/r".toList)
          ([("good".toList, false)] ++ ("bad".toList, false) :: [("sub".toList, true)])
          ⟨[], []⟩ [] ⟨[], []⟩ =
        collectEntries (collectDir fsC8 4) fsC8 ("/r".toList) [("sub".toList, true)]
          (collectEntries (collectDir fsC8 4) fsC8 ("/r".toList)
            [("good".toList, false)] ⟨[], []⟩ [] ⟨[], []⟩).1
          ((collectEntries (collectDir fsC8 4) fsC8 ("/r".toList)
            [("good".toList, false)] ⟨[], []⟩ [] ⟨[], []⟩).2.1 ++
            [CErr.readFile (joinPath ("/r".toList) ("bad".toList))])
          (collectEntries (collectDir fsC8 4) fsC8 ("/r".toList)
            [("good".toList, false)] ⟨[], []⟩ [] ⟨[], []⟩).2.2 ∧
      (∃ es st', collectDir fsC8 (4 + 1) ("/r".toList) ⟨[], []⟩ = (.error es, st') ∧
        CErr.readFile (joinPath ("/r".toList) ("bad".toList)) ∈ es) ∧
      collectEntries (collectDir fsC8d (3 + 1)) fsC8d ("/q".toList)
          ([("okf".toList, false)] ++ ("bd".toList, true) :: [("sub".toList, true)])
          ⟨[], []⟩ [] ⟨[], []⟩ =
        collectEntries (collectDir fsC8d (3 + 1)) fsC8d ("/q".toList)
          [("sub".toList, true)]
          (collectEntries (collectDir fsC8d (3 + 1)) fsC8d ("/q".toList)
            [("okf".toList, false)] ⟨[], []⟩ [] ⟨[], []⟩).1
          ((collectEntries (collectDir fsC8d (3 + 1)) fsC8d ("/q".toList)
            [("okf".toList, false)] ⟨[], []⟩ [] ⟨[], []⟩).2.1 ++
            [CErr.readDir (joinPath ("/q".toList) ("bd".toList))])
          (collectEntries (collectDir fsC8d (3 + 1)) fsC8d ("/q".toList)
            [("okf".toList, false)] ⟨[], []⟩ [] ⟨[], []⟩).2.2 ∧
      (∃ es st', collectDir fsC8d (3 + 1 + 1) ("/q".toList) ⟨[], []⟩ = (.error es, st') ∧
        CErr.readDir (joinPath ("/q".toList) ("bd".toList)) ∈ es) := by
  have hskipf : "bad".toList ∉ skipNames := by decide
  have hskipd : "bd".toList ∉ skipNames := by decide
  have hbadf : isFileEntry (fsC8 (joinPath ("/r".toList) ("bad".toList))) = false := by
    decide
  have hbadd : isDirEntry (fsC8d (joinPath ("/q".toList) ("bd".toList))) = false := by
    decide
  have hf := claim_C8_partial_failure fsC8 ("/r".toList) ("bad".toList)
    [("good".toList, false)] [("sub".toList, true)] hskipf
  have hd := claim_C8_partial_failure fsC8d ("/q".toList) ("bd".toList)
    [("okf".toList, false)] [("sub".toList, true)] hskipd
  exact ⟨hskipf, hskipd, hbadf, hbadd,
    (hf.1 hbadf).1 (collectDir fsC8 4) ⟨[], []⟩ [] ⟨[], []⟩,
    (hf.1 hbadf).2.1 4 ⟨[], []⟩ (by decide),
    (hd.2 hbadd).1 3 ⟨[], []⟩ [] ⟨[], []⟩,
    (hd.2 hbadd).2.1 3 ⟨[], []⟩ (by decide)⟩

/-! ## Theorems: generator — determinism (C1) -/

theorem sortDirs_perm (l : List (Str × Dir)) : (sortDirs l).Perm l :=
  List.perm_insertionSort depthGe l

theorem sortDirs_sorted (l : List (Str × Dir)) : List.Sorted depthGe (sortDirs l) :=
  List.sorted_insertionSort depthGe l

theorem sortDirs_eq_of_perm (l₁ l₂ : List (Str × Dir)) (hperm : l₁.Perm l₂)
    (hdepths : l₁.Pairwise (fun a b => sepCount a.1 ≠ sepCount b.1)) :
    sortDirs l₁ = sortDirs l₂ := by
  have hp : (sortDirs l₁).Perm (sortDirs l₂) :=
    (sortDirs_perm l₁).trans (hperm.trans (sortDirs_perm l₂).symm)
  have hd₁ : (sortDirs l₁).Pairwise (fun a b => sepCount a.1 ≠ sepCount b.1) :=
    (List.Perm.pairwise_iff (fun h => h.symm) (sortDirs_perm l₁)).mpr hdepths
  have hd₂ : (sortDirs l₂).Pairwise (fun a b => sepCount a.1 ≠ sepCount b.1) :=
    (List.Perm.pairwise_iff (fun h => h.symm) (sortDirs_perm l₂)).mpr
      ((List.Perm.pairwise_iff (fun h => h.symm) hperm).mp hdepths)
  have hst₁ : List.Sorted depthGt (sortDirs l₁) :=
    ((sortDirs_sorted l₁).and hd₁).imp
      (fun h => lt_of_le_of_ne h.1 (fun he => h.2 he.symm))
  have hst₂ : List.Sorted depthGt (sortDirs l₂) :=
    ((sortDirs_sorted l₂).and hd₂).imp
      (fun h => lt_of_le_of_ne h.1 (fun he => h.2 he.symm))
  exact List.eq_of_perm_of_sorted hp hst₁ hst₂

/-- C1 counterexample: the two iteration orders of the same two-key map
(both keys at separator depth 1) produce different generated output — the
directory blocks are emitted in the order the unstable sort leaves the
equal-depth keys, which is the map iteration order. -/
theorem claim_C1_counterexample :
    dirsC1a.Perm dirsC1b ∧ GenerateCode dirsC1a false ≠ GenerateCode dirsC1b false := by
  constructor
  · decide
  · decide

/-- C1 (corrected): `GenerateCode` is deterministic — byte-identical
template output for every iteration order of the mapping — provided the
keys' separator counts are pairwise distinct.  With ties the emission
order of the tied keys follows the arbitrary map iteration order (see the
counterexample). -/
theorem claim_C1_determinism (l₁ l₂ : List (Str × Dir)) (dev : Bool)
    (hperm : l₁.Perm l₂)
    (hdepths : l₁.Pairwise (fun a b => sepCount a.1 ≠ sepCount b.1)) :
    GenerateCode l₁ dev = GenerateCode l₂ dev := by
  unfold GenerateCode genBlocks
  rw [sortDirs_eq_of_perm l₁ l₂ hperm hdepths]

theorem claim_C1_determinism_witness :
    ([("/a".toList, (⟨[], []⟩ : Dir)), ("/a/b".toList, ⟨[], []⟩)]).Perm
        [("/a/b".toList, (⟨[], []⟩ : Dir)), ("/a".toList, ⟨[], []⟩)] ∧
      ([("/a".toList, (⟨[], []⟩ : Dir)), ("/a/b".toList, ⟨[], []⟩)]).Pairwise
        (fun a b => sepCount a.1 ≠ sepCount b.1) ∧
      GenerateCode [("/a".toList, ⟨[], []⟩), ("/a/b".toList, ⟨[], []⟩)] false =
        GenerateCode [("/a/b".toList, ⟨[], []⟩), ("/a".toList, ⟨[], []⟩)] false := by
  have hperm : ([("/a".toList, (⟨[], []⟩ : Dir)), ("/a/b".toList, ⟨[], []⟩)]).Perm
      [("/a/b".toList, (⟨[], []⟩ : Dir)), ("/a".toList, ⟨[], []⟩)] := by decide
  have hdep : ([("/a".toList, (⟨[], []⟩ : Dir)), ("/a/b".toList, ⟨[], []⟩)]).Pairwise
      (fun a b => sepCount a.1 ≠ sepCount b.1) := by decide
  exact ⟨hperm, hdep, claim_C1_determinism _ _ false hperm hdep⟩

/-! ## Theorems: generator — hashMap and block structure -/

theorem mem_insertReplace {β : Type} {x : Str × β} {k : Str} {v : β} {l : List (Str × β)}
    (h : x ∈ insertReplace k v l) : x = (k, v) ∨ x ∈ l := by
  induction l with
  | nil => simpa [insertReplace] using h
  | cons p rest ih =>
    obtain ⟨k₀, v₀⟩ := p
    by_cases h0 : k₀ = k
    · subst h0
      rw [insertReplace, if_pos rfl] at h
      rcases List.mem_cons.mp h with h | h
      · exact Or.inl h
      · exact Or.inr (List.mem_cons_of_mem _ h)
    · rw [insertReplace, if_neg h0] at h
      rcases List.mem_cons.mp h with h | h
      · exact Or.inr (h ▸ List.mem_cons_self _ _)
      · rcases ih h with h | h
        · exact Or.inl h
        · exact Or.inr (List.mem_cons_of_mem _ h)

theorem nodupKeys_perm {β : Type} {l₁ l₂ : List (Str × β)} (h : l₁.Perm l₂)
    (hn : NodupKeys l₂) : NodupKeys l₁ := by
  unfold NodupKeys at *
  rw [keysOf_eq_map] at *
  exact ((h.map Prod.fst).nodup_iff).mpr hn

theorem alookup_sortAssoc {β : Type} (l : List (Str × β)) (hn : NodupKeys l) (k : Str) :
    alookup k (sortAssoc l) = alookup k l := by
  have hperm : (sortAssoc l).Perm l := List.perm_insertionSort _ l
  exact alookup_perm hperm (nodupKeys_perm hperm hn) k

theorem hmOf_append (ps : List Str) (q : Str) :
    hmOf (ps ++ [q]) = insertReplace q (hashIdent q) (hmOf ps) := by
  unfold hmOf
  rw [List.foldl_append]
  rfl

theorem alookup_hm_foldl :
    ∀ (ps : List Str) (m : List (Str × Str)) (q : Str),
      alookup q (ps.foldl (fun m q' => insertReplace q' (hashIdent q') m) m) =
        if q ∈ ps then some (hashIdent q) else alookup q m := by
  intro ps
  induction ps with
  | nil => intro m q; simp
  | cons p rest ih =>
    intro m q
    rw [List.foldl_cons, ih]
    by_cases hq : q ∈ rest
    · rw [if_pos hq, if_pos (List.mem_cons_of_mem _ hq)]
    · rw [if_neg hq, alookup_insertReplace]
      by_cases hqp : p = q
      · subst hqp
        rw [if_pos rfl, if_pos (List.mem_cons_self _ _)]
      · have hnotin : ¬ q ∈ p :: rest := by
          intro hmem
          rcases List.mem_cons.mp hmem with h | h
          · exact hqp h.symm
          · exact hq h
        rw [if_neg hqp, if_neg hnotin]

theorem alookup_hmOf (ps : List Str) (q : Str) :
    alookup q (hmOf ps) = if q ∈ ps then some (hashIdent q) else none := by
  unfold hmOf
  rw [alookup_hm_foldl]
  rfl

theorem buildBlocks_cons (hm : List (Str × Str)) (p : Str) (d : Dir)
    (rest : List (Str × Dir)) :
    buildBlocks hm ((p, d) :: rest) =
      mkBlock (insertReplace p (hashIdent p) hm) p d ::
        buildBlocks (insertReplace p (hashIdent p) hm) rest := rfl

theorem buildBlocks_append (ys : List (Str × Dir)) :
    ∀ (xs : List (Str × Dir)) (ps : List Str),
      buildBlocks (hmOf ps) (xs ++ ys) =
        buildBlocks (hmOf ps) xs ++ buildBlocks (hmOf (ps ++ keysOf xs)) ys := by
  intro xs
  induction xs with
  | nil =>
    intro ps
    simp only [List.nil_append, keysOf_nil, List.append_nil, buildBlocks]
  | cons pd xs ih =>
    intro ps
    obtain ⟨p, d⟩ := pd
    rw [List.cons_append, buildBlocks_cons, ← hmOf_append, ih (ps ++ [p]),
      buildBlocks_cons, ← hmOf_append, List.cons_append]
    have hkeys : ps ++ [p] ++ keysOf xs = ps ++ keysOf ((p, d) :: xs) := by
      rw [keysOf_cons, List.append_assoc, List.singleton_append]
    rw [hkeys]

theorem buildBlocks_hashes :
    ∀ (s : List (Str × Dir)) (hm : List (Str × Str)),
      (buildBlocks hm s).map Block.Hash = (keysOf s).map hashIdent := by
  intro s
  induction s with
  | nil => intro hm; rfl
  | cons pd rest ih =>
    intro hm
    obtain ⟨p, d⟩ := pd
    rw [buildBlocks_cons, List.map_cons, keysOf_cons, List.map_cons, ih]
    rfl

theorem buildBlocks_names :
    ∀ (s : List (Str × Dir)) (hm : List (Str × Str)),
      (buildBlocks hm s).map Block.Name = keysOf s := by
  intro s
  induction s with
  | nil => intro hm; rfl
  | cons pd rest ih =>
    intro hm
    obtain ⟨p, d⟩ := pd
    rw [buildBlocks_cons, List.map_cons, keysOf_cons, ih]
    rfl

theorem buildBlocks_split :
    ∀ (s : List (Str × Dir)) (ps : List Str) (pre : List Block) (blk : Block)
      (post : List Block),
      buildBlocks (hmOf ps) s = pre ++ blk :: post →
      ∃ s₁ p d s₂, s = s₁ ++ (p, d) :: s₂ ∧
        pre = buildBlocks (hmOf ps) s₁ ∧
        blk = mkBlock (hmOf (ps ++ keysOf s₁ ++ [p])) p d := by
  intro s
  induction s with
  | nil =>
    intro ps pre blk post h
    simp only [buildBlocks] at h
    cases pre <;> simp at h
  | cons pd rest ih =>
    intro ps pre blk post h
    obtain ⟨p, d⟩ := pd
    rw [buildBlocks_cons, ← hmOf_append] at h
    cases pre with
    | nil =>
      rw [List.nil_append] at h
      injection h with h1 h2
      refine ⟨[], p, d, rest, by simp, rfl, ?_⟩
      rw [← h1]
      have : ps ++ keysOf ([] : List (Str × Dir)) ++ [p] = ps ++ [p] := by simp
      rw [this]
    | cons b₀ pre' =>
      rw [List.cons_append] at h
      injection h with h1 h2
      obtain ⟨s₁, p', d', s₂, hs, hpre, hblk⟩ := ih (ps ++ [p]) pre' blk post h2
      refine ⟨(p, d) :: s₁, p', d', s₂, by rw [hs, List.cons_append], ?_, ?_⟩
      · rw [buildBlocks_cons, ← hmOf_append, ← h1, hpre]
      · rw [hblk]
        have : ps ++ [p] ++ keysOf s₁ ++ [p'] = ps ++ keysOf ((p, d) :: s₁) ++ [p'] := by
          rw [keysOf_cons]
          simp [List.append_assoc]
        rw [this]

/-! ## Theorems: generator — path shapes and depths -/

theorem subShape_goRel {p sub : Str} (h : SubShape p sub) :
    goRel p sub = some (sub.drop (p.length + 1)) := by
  obtain ⟨heq, _, _⟩ := h
  unfold goRel
  rw [if_pos]
  have h2 : sub = (p ++ ['/']) ++ sub.drop (p.length + 1) := by
    conv_lhs => rw [heq]
    simp
  conv_lhs => rw [h2]
  rw [List.take_left' (by simp)]

theorem subShape_sepCount {p sub : Str} (h : SubShape p sub) :
    sepCount sub = sepCount p + 1 := by
  obtain ⟨heq, hne, hnm⟩ := h
  rw [heq]
  unfold sepCount
  rw [List.count_append]
  have h0 : (sub.drop (p.length + 1)).count '/' = 0 := List.count_eq_zero.mpr hnm
  simp [List.count_cons, h0]

theorem subShape_rel_inj {p s₁ s₂ : Str} (h₁ : SubShape p s₁) (h₂ : SubShape p s₂)
    (he : s₁.drop (p.length + 1) = s₂.drop (p.length + 1)) : s₁ = s₂ := by
  rw [h₁.1, he]
  exact h₂.1.symm

/-- In a descending-depth-sorted sequence split at `(p, d)`, every key of
the whole sequence strictly deeper than `p` lies in the front part. -/
theorem mem_sorted_front {s₁ s₂ : List (Str × Dir)} {p : Str} {d : Dir} {sub : Str}
    (hsort : List.Sorted depthGe (s₁ ++ (p, d) :: s₂))
    (hmem : sub ∈ keysOf (s₁ ++ (p, d) :: s₂)) (hdeep : sepCount p < sepCount sub) :
    sub ∈ keysOf s₁ := by
  rw [keysOf_append, keysOf_cons] at hmem
  rcases List.mem_append.mp hmem with h | h
  · exact h
  · exfalso
    have htail : List.Pairwise depthGe ((p, d) :: s₂) :=
      List.Pairwise.sublist (List.sublist_append_right _ _) hsort
    rcases List.mem_cons.mp h with h | h
    · subst h
      omega
    · obtain ⟨dsub, hds⟩ := keys_mem_of_mem h
      have hrel : depthGe (p, d) (sub, dsub) :=
        List.rel_of_pairwise_cons htail hds
      unfold depthGe at hrel
      dsimp at hrel
      omega

/-! ## Theorems: generator — subdirectory reference maps -/

theorem dirRefs_foldl_notmem (hm : List (Str × Str)) (p : Str) :
    ∀ (subs : List Str) (m : List (Str × Str)) (t : Str),
      (∀ s ∈ subs, SubShape p s) → (∀ s ∈ subs, s.drop (p.length + 1) ≠ t) →
      alookup t (subs.foldl (fun m s =>
        match goRel p s with
        | some t' => insertReplace t' ((alookup s hm).getD []) m
        | none => m) m) = alookup t m := by
  intro subs
  induction subs with
  | nil => intro m t _ _; rfl
  | cons s rest ih =>
    intro m t hshape hne
    rw [List.foldl_cons]
    have hg := subShape_goRel (hshape s (List.mem_cons_self _ _))
    have hstep : (match goRel p s with
        | some t' => insertReplace t' ((alookup s hm).getD []) m
        | none => m) =
        insertReplace (s.drop (p.length + 1)) ((alookup s hm).getD []) m := by
      rw [hg]
    rw [hstep, ih _ t (fun x hx => hshape x (List.mem_cons_of_mem _ hx))
      (fun x hx => hne x (List.mem_cons_of_mem _ hx)),
      alookup_insertReplace, if_neg (hne s (List.mem_cons_self _ _))]

theorem dirRefs_foldl_mem (hm : List (Str × Str)) (p : Str) :
    ∀ (subs : List Str) (m : List (Str × Str)) (sub : Str),
      (∀ s ∈ subs, SubShape p s) → subs.Nodup → sub ∈ subs →
      alookup (sub.drop (p.length + 1)) (subs.foldl (fun m s =>
        match goRel p s with
        | some t' => insertReplace t' ((alookup s hm).getD []) m
        | none => m) m) = some ((alookup sub hm).getD []) := by
  intro subs
  induction subs with
  | nil => intro m sub _ _ h; cases h
  | cons s rest ih =>
    intro m sub hshape hnd hsub
    rw [List.foldl_cons]
    have hg := subShape_goRel (hshape s (List.mem_cons_self _ _))
    have hstep : (match goRel p s with
        | some t' => insertReplace t' ((alookup s hm).getD []) m
        | none => m) =
        insertReplace (s.drop (p.length + 1)) ((alookup s hm).getD []) m := by
      rw [hg]
    rw [hstep]
    rcases List.mem_cons.mp hsub with h | h
    · subst h
      rw [dirRefs_foldl_notmem hm p rest _ _
        (fun x hx => hshape x (List.mem_cons_of_mem _ hx)) ?_,
        alookup_insertReplace, if_pos rfl]
      intro x hx he
      have : x = sub := subShape_rel_inj
        (hshape x (List.mem_cons_of_mem _ hx)) (hshape sub (List.mem_cons_self _ _)) he
      subst this
      exact (List.nodup_cons.mp hnd).1 hx
    · exact ih _ sub (fun x hx => hshape x (List.mem_cons_of_mem _ hx))
        (List.nodup_cons.mp hnd).2 h

theorem dirRefs_lookup (hm : List (Str × Str)) (p : Str) (subs : List Str) (sub : Str)
    (hshape : ∀ s ∈ subs, SubShape p s) (hnd : subs.Nodup) (hsub : sub ∈ subs) :
    alookup (sub.drop (p.length + 1)) (dirRefs hm p subs) =
      some ((alookup sub hm).getD []) := by
  unfold dirRefs
  exact dirRefs_foldl_mem hm p subs [] sub hshape hnd hsub

theorem dirRefs_foldl_nodup (hm : List (Str × Str)) (p : Str) :
    ∀ (subs : List Str) (m : List (Str × Str)), NodupKeys m →
      NodupKeys (subs.foldl (fun m s =>
        match goRel p s with
        | some t' => insertReplace t' ((alookup s hm).getD []) m
        | none => m) m) := by
  intro subs
  induction subs with
  | nil => intro m h; exact h
  | cons s rest ih =>
    intro m h
    rw [List.foldl_cons]
    cases hg : goRel p s with
    | some t' =>
      refine ih _ ?_
      exact nodupKeys_insertReplace _ _ _ h
    | none =>
      refine ih _ ?_
      exact h

theorem dirRefs_nodupKeys (hm : List (Str × Str)) (p : Str) (subs : List Str) :
    NodupKeys (dirRefs hm p subs) := by
  unfold dirRefs
  exact dirRefs_foldl_nodup hm p subs [] List.Pairwise.nil

theorem mem_dirRefs_foldl (hm : List (Str × Str)) (p : Str) :
    ∀ (subs : List Str) (m : List (Str × Str)) (x : Str × Str),
      x ∈ subs.foldl (fun m s =>
        match goRel p s with
        | some t' => insertReplace t' ((alookup s hm).getD []) m
        | none => m) m →
      x ∈ m ∨ ∃ s ∈ subs, goRel p s = some x.1 ∧ x.2 = (alookup s hm).getD [] := by
  intro subs
  induction subs with
  | nil => intro m x h; exact Or.inl h
  | cons s rest ih =>
    intro m x h
    rw [List.foldl_cons] at h
    rcases ih _ x h with h' | ⟨s', hs', hg', hv'⟩
    · cases hg : goRel p s with
      | some t' =>
        have hstep : (match goRel p s with
            | some t' => insertReplace t' ((alookup s hm).getD []) m
            | none => m) =
            insertReplace t' ((alookup s hm).getD []) m := by
          rw [hg]
        rw [hstep] at h'
        rcases mem_insertReplace h' with h' | h'
        · subst h'
          exact Or.inr ⟨s, List.mem_cons_self _ _, by rw [hg], rfl⟩
        · exact Or.inl h'
      | none =>
        have hstep : (match goRel p s with
            | some t' => insertReplace t' ((alookup s hm).getD []) m
            | none => m) = m := by
          rw [hg]
        rw [hstep] at h'
        exact Or.inl h'
    · exact Or.inr ⟨s', List.mem_cons_of_mem _ hs', hg', hv'⟩

/-! ## Theorems: generator — claim C7 -/

/-- C7 (confirmed): for every collected tree mapping (each listed
subdirectory a direct child of its parent and itself a key), `GenerateCode`
emits the directories in descending separator-count order, and every
subdirectory reference of an emitted block carries the hash identifier of
a block emitted strictly earlier. -/
theorem claim_C7_emission_order (dirsIter : List (Str × Dir)) (hwf : WFdirs dirsIter) :
    ((genBlocks dirsIter).map Block.Name).Pairwise (fun a b => sepCount b ≤ sepCount a) ∧
      ∀ (pre : List Block) (blk : Block) (post : List Block),
        genBlocks dirsIter = pre ++ blk :: post →
        ∀ t h, (t, h) ∈ blk.Dirs → ∃ blk' ∈ pre, blk'.Hash = h := by
  constructor
  · have h1 : (genBlocks dirsIter).map Block.Name = keysOf (sortDirs dirsIter) :=
      buildBlocks_names _ _
    rw [h1, keysOf_eq_map]
    exact (List.pairwise_map).mpr (sortDirs_sorted dirsIter)
  · intro pre blk post heq t h hmem
    have heq' : buildBlocks (hmOf []) (sortDirs dirsIter) = pre ++ blk :: post := heq
    obtain ⟨s₁, p, d, s₂, hs, hpre, hblk⟩ :=
      buildBlocks_split (sortDirs dirsIter) [] pre blk post heq'
    have hmem' : (t, h) ∈ dirRefs (hmOf ([] ++ keysOf s₁ ++ [p])) p d.SubDirs := by
      rw [hblk] at hmem
      exact (List.mem_insertionSort _).mp hmem
    rcases mem_dirRefs_foldl _ p d.SubDirs [] (t, h) hmem' with hfalse |
      ⟨sub, hsubmem, hgrel, hval⟩
    · cases hfalse
    have hpd_mem : (p, d) ∈ dirsIter := by
      have hx : (p, d) ∈ sortDirs dirsIter := by
        rw [hs]
        exact List.mem_append.mpr (Or.inr (List.mem_cons_self _ _))
      exact (List.mem_insertionSort _).mp hx
    obtain ⟨hfiles, hsubnd, hsubwf⟩ := hwf.2 (p, d) hpd_mem
    dsimp only at hfiles hsubnd hsubwf
    obtain ⟨hshape, hkey⟩ := hsubwf sub hsubmem
    have hdeep : sepCount p < sepCount sub := by
      rw [subShape_sepCount hshape]
      omega
    have hkey' : sub ∈ keysOf (sortDirs dirsIter) := by
      rw [keysOf_eq_map] at hkey ⊢
      exact ((sortDirs_perm dirsIter).map Prod.fst).mem_iff.mpr hkey
    have hsort := sortDirs_sorted dirsIter
    rw [hs] at hsort hkey'
    have hfront : sub ∈ keysOf s₁ := mem_sorted_front hsort hkey' hdeep
    have hval' : h = (alookup sub (hmOf ([] ++ keysOf s₁ ++ [p]))).getD [] := hval
    have hh : h = hashIdent sub := by
      rw [hval', alookup_hmOf,
        if_pos (by
          simp only [List.nil_append]
          exact List.mem_append.mpr (Or.inl hfront))]
      rfl
    have hhash : hashIdent sub ∈ pre.map Block.Hash := by
      rw [hpre, buildBlocks_hashes]
      exact List.mem_map.mpr ⟨sub, hfront, rfl⟩
    rcases List.mem_map.mp hhash with ⟨blk', hblk', hbh⟩
    exact ⟨blk', hblk', by rw [hbh, hh]⟩

theorem claim_C7_emission_order_witness :
    WFdirs [("/a".toList, ⟨["/a/b".toList], []⟩), ("/a/b".toList, ⟨[], []⟩)] ∧
      genBlocks [("/a".toList, ⟨["/a/b".toList], []⟩), ("/a/b".toList, ⟨[], []⟩)] =
        [⟨"/a/b".toList, "_/a/b".toList, [], []⟩,
         ⟨"/a".toList, "_/a".toList, [("b".toList, "_/a/b".toList)], []⟩] ∧
      (∃ blk' ∈ [(⟨"/a/b".toList, "_/a/b".toList, [], []⟩ : Block)],
        blk'.Hash = "_/a/b".toList) := by
  have hwf : WFdirs [("/a".toList, ⟨["/a/b".toList], []⟩), ("/a/b".toList, ⟨[], []⟩)] := by
    decide
  have h := claim_C7_emission_order _ hwf
  refine ⟨hwf, by decide, ?_⟩
  exact h.2 [⟨"/a/b".toList, "_/a/b".toList, [], []⟩]
    ⟨"/a".toList, "_/a".toList, [("b".toList, "_/a/b".toList)], []⟩ [] (by decide)
    ("b".toList) ("_/a/b".toList) (by decide)

/-! ## Theorems: runtime accessor lemmas -/

theorem zappedFile_embedded_hit (rfs : RFs) (dir : RDir) (n f : Str)
    (h : alookup n dir.files = some f) : zappedFile false rfs dir n = .ok f := by
  unfold zappedFile
  rw [h]

theorem zappedFile_embedded_miss (rfs : RFs) (dir : RDir) (n : Str)
    (h : alookup n dir.files = none) :
    zappedFile false rfs dir n = .error (.notFoundFile n) := by
  unfold zappedFile
  rw [h]

theorem zappedFile_dev_ok (rfs : RFs) (dir : RDir) (n bytes : Str)
    (h : rfs (joinPath dir.devPath n) = .ok bytes) :
    zappedFile true rfs dir n = .ok bytes := by
  unfold zappedFile
  rw [h]

theorem zappedFile_dev_err (rfs : RFs) (dir : RDir) (n : Str) (e : IOE)
    (h : rfs (joinPath dir.devPath n) = .error e) :
    zappedFile true rfs dir n = .error (.io e) := by
  unfold zappedFile
  rw [h]

theorem zappedDirectory_embedded_hit (env : List (Str × RDir)) (dir : RDir)
    (n h : Str) (rd' : RDir) (h1 : alookup n dir.directories = some h)
    (h2 : alookup h env = some rd') : zappedDirectory false env dir n = .ok rd' := by
  unfold zappedDirectory
  rw [h1]
  dsimp only
  rw [h2]

/-! ## Theorems: the generated environment (`init`) -/

theorem interp_foldl_notmem :
    ∀ (bs : List Block) (env : List (Str × RDir)) (k : Str), k ∉ bs.map Block.Hash →
      alookup k (bs.foldl (fun env b => insertReplace b.Hash ⟨b.Files, b.Dirs, []⟩ env) env) =
        alookup k env := by
  intro bs
  induction bs with
  | nil => intro env k _; rfl
  | cons b rest ih =>
    intro env k hk
    have hbh : b.Hash ∈ (b :: rest).map Block.Hash :=
      List.mem_map.mpr ⟨b, List.mem_cons_self _ _, rfl⟩
    have hne2 : ¬ b.Hash = k := fun he => hk (he ▸ hbh)
    rw [List.foldl_cons, ih _ k (fun hx => hk (List.mem_cons_of_mem _ hx)),
      alookup_insertReplace, if_neg hne2]

theorem interpBlocks_lookup_aux :
    ∀ (bs : List Block) (env : List (Str × RDir)) (b : Block), b ∈ bs →
      (bs.map Block.Hash).Nodup →
      alookup b.Hash (bs.foldl (fun env b => insertReplace b.Hash ⟨b.Files, b.Dirs, []⟩ env) env) =
        some ⟨b.Files, b.Dirs, []⟩ := by
  intro bs
  induction bs with
  | nil => intro env b hb _; cases hb
  | cons b₀ rest ih =>
    intro env b hb hnd
    rw [List.map_cons, List.nodup_cons] at hnd
    rcases List.mem_cons.mp hb with hb | hb
    · subst hb
      rw [List.foldl_cons, interp_foldl_notmem rest _ b.Hash hnd.1,
        alookup_insertReplace, if_pos rfl]
    · rw [List.foldl_cons]
      exact ih _ b hb hnd.2

theorem interpBlocks_lookup (bs : List Block) (hnd : (bs.map Block.Hash).Nodup)
    (b : Block) (hb : b ∈ bs) :
    alookup b.Hash (interpBlocks bs) = some ⟨b.Files, b.Dirs, []⟩ :=
  interpBlocks_lookup_aux bs [] b hb hnd

theorem genBlocks_hashes_nodup (l : List (Str × Dir)) (hn : NodupKeys l) :
    ((genBlocks l).map Block.Hash).Nodup := by
  unfold genBlocks
  rw [buildBlocks_hashes]
  have hks : (keysOf (sortDirs l)).Nodup := nodupKeys_perm (sortDirs_perm l) hn
  have hinj : Function.Injective hashIdent := fun a b hab => by
    simpa [hashIdent] using hab
  exact hks.map hinj

theorem genBlocks_block_of_mem (l : List (Str × Dir)) (q : Str) (dq : Dir)
    (hq : (q, dq) ∈ l) :
    ∃ s₁ s₂, sortDirs l = s₁ ++ (q, dq) :: s₂ ∧
      genBlocks l = buildBlocks (hmOf []) s₁ ++
        mkBlock (hmOf (keysOf s₁ ++ [q])) q dq ::
          buildBlocks (hmOf (keysOf s₁ ++ [q])) s₂ := by
  have hmem : (q, dq) ∈ sortDirs l := (List.mem_insertionSort _).mpr hq
  obtain ⟨s₁, s₂, hs⟩ := List.append_of_mem hmem
  refine ⟨s₁, s₂, hs, ?_⟩
  show buildBlocks (hmOf []) (sortDirs l) = _
  rw [hs, buildBlocks_append ((q, dq) :: s₂) s₁ [], buildBlocks_cons, ← hmOf_append]
  simp only [List.nil_append]

/-! ## Theorems: claims C3 and C9 -/

/-- C3 counterexample: for the one-directory mapping `dirsC3` the generated
environment holds the directory's data (the file `f` is retrievable from
the instantiated graph), but the generated `init` leaves the `resources`
registry empty, so the embedded `Resource` lookup cannot reach the graph
for any key. -/
theorem claim_C3_counterexample :
    interpBlocks (genBlocks dirsC3) =
      [("_/x".toList, ⟨[("f".toList, "hi".toList)], [], []⟩)] ∧
      zappedFile false (fun _ => .error (.noEnt []))
        ⟨[("f".toList, "hi".toList)], [], []⟩ ("f".toList) = .ok ("hi".toList) ∧
      initResources (genBlocks dirsC3) = [] ∧
      zappedResource (initResources (genBlocks dirsC3)) ("K".toList) =
        .error (.notFoundRes ("K".toList)) := by
  refine ⟨by decide, rfl, rfl, rfl⟩

/-- C3 (corrected): for every collected tree mapping, the runtime graph
instantiated from the generated artifact in embedded mode exposes exactly
the original data — `File(name)` returns each contained file's original
bytes and `Directory(relativeName)` succeeds for every contained
subdirectory, yielding the child's graph node, which is itself the
environment's node for that subdirectory.  (The embedded `Resource`-by-key
lookup does not reach this graph: the generated `init` never populates the
`resources` registry; see the counterexample.) -/
theorem claim_C3_roundtrip (l : List (Str × Dir)) (hwf : WFdirs l) (p : Str) (d : Dir)
    (hmem : (p, d) ∈ l) :
    ∃ rd, alookup (hashIdent p) (interpBlocks (genBlocks l)) = some rd ∧
      (∀ (rfs : RFs) (n c : Str), (n, c) ∈ d.Files → zappedFile false rfs rd n = .ok c) ∧
      (∀ sub ∈ d.SubDirs, ∃ rd',
        zappedDirectory false (interpBlocks (genBlocks l)) rd (sub.drop (p.length + 1)) =
          .ok rd' ∧
        alookup (hashIdent sub) (interpBlocks (genBlocks l)) = some rd') := by
  obtain ⟨s₁, s₂, hs, hgen⟩ := genBlocks_block_of_mem l p d hmem
  have hndhash : ((genBlocks l).map Block.Hash).Nodup := genBlocks_hashes_nodup l hwf.1
  have hBmem : mkBlock (hmOf (keysOf s₁ ++ [p])) p d ∈ genBlocks l := by
    rw [hgen]
    exact List.mem_append.mpr (Or.inr (List.mem_cons_self _ _))
  have henv : alookup (hashIdent p) (interpBlocks (genBlocks l)) =
      some ⟨(mkBlock (hmOf (keysOf s₁ ++ [p])) p d).Files,
        (mkBlock (hmOf (keysOf s₁ ++ [p])) p d).Dirs, []⟩ :=
    interpBlocks_lookup _ hndhash _ hBmem
  obtain ⟨hfilesnd, hsubnd, hsubwf⟩ := hwf.2 (p, d) hmem
  dsimp only at hfilesnd hsubnd hsubwf
  refine ⟨_, henv, ?_, ?_⟩
  · intro rfs n c hnc
    refine zappedFile_embedded_hit rfs _ n c ?_
    show alookup n (sortAssoc d.Files) = some c
    rw [alookup_sortAssoc d.Files hfilesnd]
    exact alookup_eq_some_of_mem hfilesnd hnc
  · intro sub hsub
    obtain ⟨hshape, hkey⟩ := hsubwf sub hsub
    have hdeep : sepCount p < sepCount sub := by
      rw [subShape_sepCount hshape]
      omega
    have hkey' : sub ∈ keysOf (sortDirs l) := by
      rw [keysOf_eq_map] at hkey ⊢
      exact ((sortDirs_perm l).map Prod.fst).mem_iff.mpr hkey
    have hsort := sortDirs_sorted l
    rw [hs] at hsort hkey'
    have hfront : sub ∈ keysOf s₁ := mem_sorted_front hsort hkey' hdeep
    have hlook : alookup (sub.drop (p.length + 1))
        (mkBlock (hmOf (keysOf s₁ ++ [p])) p d).Dirs = some (hashIdent sub) := by
      show alookup _ (sortAssoc (dirRefs (hmOf (keysOf s₁ ++ [p])) p d.SubDirs)) = _
      rw [alookup_sortAssoc _ (dirRefs_nodupKeys _ _ _),
        dirRefs_lookup _ p d.SubDirs sub (fun x hx => (hsubwf x hx).1) hsubnd hsub,
        alookup_hmOf, if_pos (List.mem_append.mpr (Or.inl hfront))]
      rfl
    obtain ⟨dsub, hdsub⟩ := keys_mem_of_mem hkey
    obtain ⟨t₁, t₂, hts, htgen⟩ := genBlocks_block_of_mem l sub dsub hdsub
    have hB'mem : mkBlock (hmOf (keysOf t₁ ++ [sub])) sub dsub ∈ genBlocks l := by
      rw [htgen]
      exact List.mem_append.mpr (Or.inr (List.mem_cons_self _ _))
    have henv' : alookup (hashIdent sub) (interpBlocks (genBlocks l)) =
        some ⟨(mkBlock (hmOf (keysOf t₁ ++ [sub])) sub dsub).Files,
          (mkBlock (hmOf (keysOf t₁ ++ [sub])) sub dsub).Dirs, []⟩ :=
      interpBlocks_lookup _ hndhash _ hB'mem
    exact ⟨_, zappedDirectory_embedded_hit _ _ _ _ _ hlook henv', henv'⟩

theorem claim_C3_roundtrip_witness :
    WFdirs [("/a".toList, ⟨["/a/b".toList], [("f".toList, "x".toList)]⟩),
        ("/a/b".toList, ⟨[], [("g".toList, "y".toList)]⟩)] ∧
      (∃ rd, alookup (hashIdent ("/a".toList))
          (interpBlocks (genBlocks
            [("/a".toList, ⟨["/a/b".toList], [("f".toList, "x".toList)]⟩),
             ("/a/b".toList, ⟨[], [("g".toList, "y".toList)]⟩)])) = some rd ∧
        (∀ (rfs : RFs) (n c : Str),
          (n, c) ∈ [("f".toList, "x".toList)] → zappedFile false rfs rd n = .ok c) ∧
        (∀ sub ∈ ["/a/b".toList], ∃ rd',
          zappedDirectory false
            (interpBlocks (genBlocks
              [("/a".toList, ⟨["/a/b".toList], [("f".toList, "x".toList)]⟩),
               ("/a/b".toList, ⟨[], [("g".toList, "y".toList)]⟩)]))
            rd (sub.drop (("/a".toList).length + 1)) = .ok rd' ∧
          alookup (hashIdent sub)
            (interpBlocks (genBlocks
              [("/a".toList, ⟨["/a/b".toList], [("f".toList, "x".toList)]⟩),
               ("/a/b".toList, ⟨[], [("g".toList, "y".toList)]⟩)])) = some rd')) := by
  have hwf : WFdirs [("/a".toList, ⟨["/a/b".toList], [("f".toList, "x".toList)]⟩),
      ("/a/b".toList, ⟨[], [("g".toList, "y".toList)]⟩)] := by decide
  exact ⟨hwf, claim_C3_roundtrip _ hwf ("/a".toList)
    ⟨["/a/b".toList], [("f".toList, "x".toList)]⟩ (by decide)⟩

/-- C9 (confirmed): `Directory.File` — in embedded mode a map hit returns
the stored file and a miss returns the synthesized not-found error (error
exactly when the name is absent); in development mode the result is the
read of `join(devPath, name)` against the current filesystem, and on
failure the underlying I/O error itself is returned (never a synthesized
not-found), so the caller can distinguish a missing file (`noEnt`) from an
unreadable one (`perm`). -/
theorem claim_C9_file_lookup :
    (∀ (rfs : RFs) (dir : RDir) (name f : Str),
      alookup name dir.files = some f → zappedFile false rfs dir name = .ok f) ∧
      (∀ (rfs : RFs) (dir : RDir) (name : Str),
        alookup name dir.files = none →
          zappedFile false rfs dir name = .error (.notFoundFile name)) ∧
      (∀ (rfs : RFs) (dir : RDir) (name bytes : Str),
        rfs (joinPath dir.devPath name) = .ok bytes →
          zappedFile true rfs dir name = .ok bytes) ∧
      (∀ (rfs : RFs) (dir : RDir) (name : Str) (e : IOE),
        rfs (joinPath dir.devPath name) = .error e →
          zappedFile true rfs dir name = .error (.io e)) ∧
      (∀ (name : Str) (e : IOE), ZErr.io e ≠ ZErr.notFoundFile name) ∧
      (∀ (p q : Str), IOE.noEnt p ≠ IOE.perm q) := by
  refine ⟨fun rfs dir name f h => zappedFile_embedded_hit rfs dir name f h,
    fun rfs dir name h => zappedFile_embedded_miss rfs dir name h,
    fun rfs dir name bytes h => zappedFile_dev_ok rfs dir name bytes h,
    fun rfs dir name e h => zappedFile_dev_err rfs dir name e h, ?_, ?_⟩
  · intro name e h
    cases h
  · intro p q h
    cases h

theorem claim_C9_file_lookup_witness :
    alookup ("a".toList) [("a".toList, "x".toList)] = some ("x".toList) ∧
      zappedFile false (fun _ => .error (.noEnt []))
        ⟨[("a".toList, "x".toList)], [], "/d".toList⟩ ("a".toList) = .ok ("x".toList) ∧
      zappedFile true (fun q => .error (.perm q))
        ⟨[], [], "/d".toList⟩ ("a".toList) =
        .error (.io (.perm (joinPath ("/d".toList) ("a".toList)))) := by
  refine ⟨by decide, ?_, ?_⟩
  · exact claim_C9_file_lookup.1 _ _ _ _ (by decide)
  · exact claim_C9_file_lookup.2.2.2.1 _ _ _ _ rfl

end Zap
